import Mathlib

/-!
Verification of the adaptive extraction engine of the `fastread` repository
(`src/parsers/base_parser.py`, `src/parsers/parser_loader.py`) against its
natural-language specification.

Python strings are modelled as lists of characters (`PyStr`); Python's
unbounded integers as `Nat`/`Int`.  Network fetches and HTML documents are
modelled by abstract environments: a fetch is a function from a URL to
`Except Unit Doc` (`Except.error` models a raised exception), and the
per-document hooks (CSS selection, parse steps) are functions out of the
abstract document type.  While-loops over fetched pages are given explicit
fuel; running out of fuel is reported as a distinct outcome so that no claim
is decided by an artificial truncation.
-/

set_option maxRecDepth 10000

/-- Python strings as lists of characters (one entry per code point, matching
Python's `len` and slicing). -/
abbrev PyStr := List Char

/-- Literal notation helper: the character list of a Lean string literal. -/
def pys (s : String) : PyStr := s.toList

/-- Python's `in` on strings: `needle in hay` is contiguous-substring
containment. -/
def isSubIn (needle : PyStr) : PyStr → Bool
  | [] => needle.isEmpty
  | c :: t => needle.isPrefixOf (c :: t) || isSubIn needle t

/-! ## Continuation matching: `BaseBookSourceParser.next_section_match`
(`src/parsers/base_parser.py` lines 348-372). -/

/-- Python's `str.rstrip(set)`: remove from the right every character that is
a member of `set` (a character set, not a suffix). -/
def pyRstripSet (set : List Char) (s : PyStr) : PyStr :=
  ((s.reverse).dropWhile (fun c => set.contains c)).reverse

/-- Value of a list of ASCII decimal digits, most significant first
(Python's `int(...)` on a digit string; Python ints are unbounded, as is
`Nat`). -/
def natOfDigits (ds : List Char) : Nat :=
  ds.foldl (fun n c => 10 * n + (c.toNat - 48)) 0

/-- The inner `parse_sec` of `next_section_match`: the regex
`(.*?)(?:_(\d+))?$` applied with `re.match`.  The lazy prefix group makes the
optional group capture the maximal trailing digit run when it is preceded by
an underscore; the index defaults to 1 when the optional group is absent.
The regex always matches, so the `None` branch of the Python code is dead. -/
def parseSec (u : PyStr) : PyStr × Nat :=
  let r := u.reverse
  let ds := r.takeWhile Char.isDigit
  match r.drop ds.length with
  | '_' :: restr =>
      if ds.isEmpty then (u, 1) else (restr.reverse, natOfDigits ds.reverse)
  | _ => (u, 1)

/-- The character set of `'.html'`; `rstrip('.html')` strips any run of these
characters, which is what the Python code executes. -/
def htmlSet : List Char := pys ".html"

/-- Embedding of `BaseBookSourceParser.next_section_match`.  Note the two
`rstrip('.html')` calls: Python's `rstrip` takes a character set. -/
def nextSectionMatch (nextSec curSec : PyStr) : Bool :=
  let n := pyRstripSet htmlSet nextSec
  let c := pyRstripSet htmlSet curSec
  let cp := parseSec c
  let np := parseSec n
  if np.2 == 2 && c.isPrefixOf n then true
  else cp.1 == np.1 && np.2 == cp.2 + 1

/-- The claim's reading of the function (C2, from the spec's words): first
remove a trailing `.html` *suffix* from both URLs, then parse and compare. -/
def stripHtmlSuffix (u : PyStr) : PyStr :=
  if htmlSet.isSuffixOf u then u.take (u.length - 5) else u

/-- The claimed characterization of `next_section_match` (C2): suffix-strip
`.html`, parse both, accept iff same base with incremented index, or index
exactly 2 with the stripped candidate extending the stripped current URL. -/
def nextSectionMatchClaimed (nextSec curSec : PyStr) : Bool :=
  let n := stripHtmlSuffix nextSec
  let c := stripHtmlSuffix curSec
  let cp := parseSec c
  let np := parseSec n
  (cp.1 == np.1 && np.2 == cp.2 + 1) || (np.2 == 2 && c.isPrefixOf n)

/-- The amended characterization: identical to the claimed one except that
the `.html` removal is Python's `rstrip` with the character set
`{'.','h','t','m','l'}`, exactly as the code executes. -/
def nextSectionMatchAmended (nextSec curSec : PyStr) : Bool :=
  let n := pyRstripSet htmlSet nextSec
  let c := pyRstripSet htmlSet curSec
  let cp := parseSec c
  let np := parseSec n
  (cp.1 == np.1 && np.2 == cp.2 + 1) || (np.2 == 2 && c.isPrefixOf n)

/-! ## Chapter-link validation: `BaseBookSourceParser.is_valid_chapter_link`
(`src/parsers/base_parser.py` lines 669-696). -/

/-- The chapter-marker tokens of the source, in source order. -/
def chapterMarkers : List PyStr :=
  [pys "第", pys "章", pys "Chapter", pys "chapter", pys "卷"]

/-- The navigation keywords of the source (`skip_keywords`), in source order,
duplicates included. -/
def skipKeywords : List PyStr :=
  [pys "首页", pys "书架", pys "排行", pys "分类", pys "搜索", pys "登录",
   pys "注册", pys "充值", pys "客服", pys "帮助", pys "关于", pys "联系",
   pys "广告", pys "javascript:", pys "mailto:", pys "#", pys "最新章节",
   pys "章节目录", pys "加入书签", pys "推荐本书", pys "上一页",
   pys "下一页", pys "返回", pys "首页", pys "书架"]

/-- Python's `str.lower()` restricted to ASCII case mapping (the only case
mapping relevant to the source's keyword lists). -/
def pyLower (s : PyStr) : PyStr := s.map Char.toLower

/-- Python's `str.isdigit()` on the digit set modelled here (ASCII decimal
digits; the source only ever meets ASCII digits in chapter titles). -/
def pyIsdigit (s : PyStr) : Bool := !s.isEmpty && s.all Char.isDigit

/-- Embedding of `BaseBookSourceParser.is_valid_chapter_link`. -/
def isValidChapterLink (title href : PyStr) : Bool :=
  if title.isEmpty || href.isEmpty then false
  else if 200 < title.length ∨ title.length < 2 then false
  else if chapterMarkers.any (fun k => isSubIn k title) then true
  else if pyIsdigit title || title.any Char.isDigit then true
  else if skipKeywords.any
      (fun k => isSubIn k (pyLower title) || isSubIn k (pyLower href)) then
    false
  else false

theorem pyIsdigit_imp_any {t : PyStr} (h : pyIsdigit t = true) :
    t.any Char.isDigit = true := by
  unfold pyIsdigit at h
  rcases t with _ | ⟨c, rest⟩
  · simp at h
  · simp only [Bool.and_eq_true, List.all_cons, List.any_cons] at h
    simp [h.2.1]

/-- C2: the claimed characterization disagrees with the code.  On
`next = "x/a_3.htmll"`, `cur = "x/a_2"` the code strips the trailing
`.html`-set characters and answers `true`, while the claimed suffix-stripping
reading answers `false`. -/
theorem nextSectionMatch_claim_false :
    nextSectionMatch (pys "x/a_3.htmll") (pys "x/a_2") = true ∧
      nextSectionMatchClaimed (pys "x/a_3.htmll") (pys "x/a_2") = false := by
  constructor <;> rfl

/-- C2 (amended): `next_section_match` strips trailing characters drawn from
the set `{'.','h','t','m','l'}` from both URLs (Python `rstrip` semantics),
parses each into `(base, index)` via an optional trailing `_<digits>` suffix
with index defaulting to 1, and returns `true` iff both share the same base
and the candidate's index is the current index plus one, or the candidate's
index is exactly 2 and the stripped candidate extends the stripped current
URL as a string prefix. -/
theorem nextSectionMatch_eq_amended (nextSec curSec : PyStr) :
    nextSectionMatch nextSec curSec = nextSectionMatchAmended nextSec curSec := by
  unfold nextSectionMatch nextSectionMatchAmended
  set n := pyRstripSet htmlSet nextSec
  set c := pyRstripSet htmlSet curSec
  cases h1 : (parseSec n).2 == 2 && c.isPrefixOf n <;>
    cases h2 : (parseSec c).1 == (parseSec n).1 && (parseSec n).2 == (parseSec c).2 + 1 <;>
      simp [h1, h2]

/-- C4: `is_valid_chapter_link` accepts exactly the pairs with nonempty title
and href, title length in [2,200], and a chapter-marker token or a digit in
the title; in every other case (including navigation keywords) it rejects.
The spec's concrete examples are included: length 1 and length 201 titles are
invalid, "第3章 重逢" is valid, "首页" is invalid with a well-formed href. -/
theorem isValidChapterLink_spec :
    (∀ t h, isValidChapterLink t h = true ↔
      t ≠ [] ∧ h ≠ [] ∧ 2 ≤ t.length ∧ t.length ≤ 200 ∧
        (chapterMarkers.any (fun k => isSubIn k t) = true ∨
          t.any Char.isDigit = true)) ∧
    isValidChapterLink (pys "第3章 重逢") (pys "/book/1/3.html") = true ∧
    isValidChapterLink (pys "首页") (pys "/book/1/index.html") = false ∧
    isValidChapterLink (pys "A") (pys "/book/1/2.html") = false ∧
    isValidChapterLink (List.replicate 201 '7') (pys "/book/1/2.html") = false := by
  refine ⟨fun t h => ?_, by rfl, by rfl, by rfl, by rfl⟩
  unfold isValidChapterLink
  split_ifs with h1 h2 h3 h4 h5
  · simp only [Bool.or_eq_true, List.isEmpty_iff] at h1
    simp only [false_iff]
    rintro ⟨ht, hh, -⟩
    rcases h1 with h1 | h1 <;> [exact ht h1; exact hh h1]
  · simp only [false_iff]
    rintro ⟨-, -, hlo, hhi, -⟩
    omega
  · simp only [Bool.or_eq_true, List.isEmpty_iff, not_or] at h1
    simp only [true_iff]
    push_neg at h2
    exact ⟨h1.1, h1.2, by omega, by omega, Or.inl h3⟩
  · simp only [Bool.or_eq_true, List.isEmpty_iff, not_or] at h1
    simp only [true_iff]
    push_neg at h2
    rcases Bool.or_eq_true _ _ |>.mp h4 with hd | hd
    · exact ⟨h1.1, h1.2, by omega, by omega, Or.inr (pyIsdigit_imp_any hd)⟩
    · exact ⟨h1.1, h1.2, by omega, by omega, Or.inr hd⟩
  · simp only [false_iff]
    rintro ⟨-, -, -, -, hm | hd⟩
    · exact h3 hm
    · exact h4 (Bool.or_eq_true _ _ |>.mpr (Or.inr hd))
  · simp only [false_iff]
    rintro ⟨-, -, -, -, hm | hd⟩
    · exact h3 hm
    · exact h4 (Bool.or_eq_true _ _ |>.mpr (Or.inr hd))

/-! ## Configuration merging: `BaseBookSourceParser.deep_update`
(`src/parsers/base_parser.py` lines 178-189). -/

/-- JSON-like configuration values: the value shapes that occur in
`SourceConfig` trees (strings, numbers, booleans, lists, nested dicts with
string keys, insertion-ordered as in Python). -/
inductive JVal where
  | str (s : PyStr)
  | num (n : Int)
  | boolean (b : Bool)
  | arr (l : List JVal)
  | obj (entries : List (PyStr × JVal))

/-- Python dict lookup `d.get(k)`: the value at the first (for a Python dict,
the only) occurrence of the key. -/
def dictGet (d : List (PyStr × JVal)) (k : PyStr) : Option JVal :=
  match d with
  | [] => none
  | (k', v) :: rest => if k' = k then some v else dictGet rest k

/-- Python dict assignment `d[k] = v`: replace in place, append when new. -/
def dictSet : List (PyStr × JVal) → PyStr → JVal → List (PyStr × JVal)
  | [], k, v => [(k, v)]
  | (k', v') :: rest, k, v =>
      if k' = k then (k, v) :: rest else (k', v') :: dictSet rest k v

mutual

/-- Embedding of `BaseBookSourceParser.deep_update`: fold the override's
entries (in order) into a copy of the base.  The Python `copy.deepcopy`
calls make the operation pure; in this embedding purity is intrinsic, so
the copies are identities. -/
def deepUpdate (d : List (PyStr × JVal)) : List (PyStr × JVal) → List (PyStr × JVal)
  | [] => d
  | (k, v) :: rest => deepUpdate (applyKey d k v) rest
termination_by u => sizeOf u
decreasing_by all_goals (simp_wf <;> omega)

/-- One iteration of the `for k, v in u.items()` loop: recurse when both the
override value and the current value at the key are dicts, otherwise store
the override value outright. -/
def applyKey (d : List (PyStr × JVal)) (k : PyStr) (v : JVal) : List (PyStr × JVal) :=
  match v, dictGet d k with
  | .obj uo, some (.obj dd) => dictSet d k (.obj (deepUpdate dd uo))
  | v, _ => dictSet d k v
termination_by sizeOf v
decreasing_by all_goals simp_wf

end

theorem deepUpdate_nil (d : List (PyStr × JVal)) : deepUpdate d [] = d := by
  rw [deepUpdate.eq_def]

theorem deepUpdate_cons (d : List (PyStr × JVal)) (k : PyStr) (v : JVal)
    (rest : List (PyStr × JVal)) :
    deepUpdate d ((k, v) :: rest) = deepUpdate (applyKey d k v) rest := by
  rw [deepUpdate.eq_def]

theorem dictGet_dictSet_self (d : List (PyStr × JVal)) (k : PyStr) (v : JVal) :
    dictGet (dictSet d k v) k = some v := by
  induction d with
  | nil => simp [dictSet, dictGet]
  | cons e rest ih =>
    obtain ⟨k', v'⟩ := e
    by_cases h : k' = k
    · simp [dictSet, dictGet, h]
    · simp [dictSet, dictGet, h, ih]

theorem dictGet_dictSet_ne (d : List (PyStr × JVal)) (v : JVal) {k k' : PyStr}
    (h : k ≠ k') : dictGet (dictSet d k v) k' = dictGet d k' := by
  induction d with
  | nil => simp [dictSet, dictGet, h]
  | cons e rest ih =>
    obtain ⟨k0, v0⟩ := e
    by_cases h0 : k0 = k
    · subst h0
      simp [dictSet, dictGet, h]
    · simp [dictSet, dictGet, h0, ih]

theorem applyKey_eq_dictSet (d : List (PyStr × JVal)) (k : PyStr) (v : JVal) :
    ∃ w, applyKey d k v = dictSet d k w := by
  unfold applyKey
  split
  · exact ⟨_, rfl⟩
  · exact ⟨_, rfl⟩

theorem dictGet_applyKey_ne (d : List (PyStr × JVal)) (v : JVal) {k k' : PyStr}
    (h : k ≠ k') : dictGet (applyKey d k v) k' = dictGet d k' := by
  obtain ⟨w, hw⟩ := applyKey_eq_dictSet d k v
  rw [hw, dictGet_dictSet_ne d w h]

theorem applyKey_obj (d : List (PyStr × JVal)) (k : PyStr)
    (uo dd : List (PyStr × JVal)) (h : dictGet d k = some (.obj dd)) :
    applyKey d k (.obj uo) = dictSet d k (.obj (deepUpdate dd uo)) := by
  unfold applyKey
  rw [h]

theorem applyKey_repl (d : List (PyStr × JVal)) (k : PyStr) (v : JVal)
    (h : (∀ e, v ≠ JVal.obj e) ∨ (∀ e, dictGet d k ≠ some (JVal.obj e))) :
    applyKey d k v = dictSet d k v := by
  unfold applyKey
  split
  · rename_i uo dd heq
    rcases h with h | h
    · exact absurd rfl (h uo)
    · exact absurd heq (h dd)
  · rfl

theorem deepUpdate_get_notin (u : List (PyStr × JVal)) :
    ∀ d k, dictGet u k = none → dictGet (deepUpdate d u) k = dictGet d k := by
  induction u with
  | nil => intro d k _; rw [deepUpdate_nil]
  | cons e rest ih =>
    obtain ⟨k0, v0⟩ := e
    intro d k h
    unfold dictGet at h
    by_cases h0 : k0 = k
    · simp [h0] at h
    · simp only [if_neg h0] at h
      rw [deepUpdate_cons, ih _ k h, dictGet_applyKey_ne d v0 h0]

theorem deepUpdate_isSome (u : List (PyStr × JVal)) :
    ∀ d k, (dictGet d k).isSome → (dictGet (deepUpdate d u) k).isSome := by
  induction u with
  | nil => intro d k h; rw [deepUpdate_nil]; exact h
  | cons e rest ih =>
    obtain ⟨k0, v0⟩ := e
    intro d k h
    rw [deepUpdate_cons]
    apply ih
    obtain ⟨w, hw⟩ := applyKey_eq_dictSet d k0 v0
    rw [hw]
    by_cases h0 : k0 = k
    · subst h0; rw [dictGet_dictSet_self]; rfl
    · rw [dictGet_dictSet_ne d w h0]; exact h

theorem dictGet_none_of_notin (u : List (PyStr × JVal)) (k : PyStr)
    (h : k ∉ u.map Prod.fst) : dictGet u k = none := by
  induction u with
  | nil => rfl
  | cons e rest ih =>
    obtain ⟨k0, v0⟩ := e
    simp only [List.map_cons, List.mem_cons, not_or] at h
    unfold dictGet
    rw [if_neg (fun he => h.1 he.symm)]
    exact ih h.2

theorem deepUpdate_get_obj (u : List (PyStr × JVal)) :
    ∀ d k uo dd, (u.map Prod.fst).Nodup → dictGet u k = some (.obj uo) →
      dictGet d k = some (.obj dd) →
      dictGet (deepUpdate d u) k = some (.obj (deepUpdate dd uo)) := by
  induction u with
  | nil => intro d k uo dd _ h; exact absurd h (by simp [dictGet])
  | cons e rest ih =>
    obtain ⟨k0, v0⟩ := e
    intro d k uo dd hnd hu hd
    simp only [List.map_cons, List.nodup_cons] at hnd
    unfold dictGet at hu
    by_cases h0 : k0 = k
    · rw [if_pos h0] at hu
      injection hu with hv
      subst hv h0
      rw [deepUpdate_cons,
        deepUpdate_get_notin rest _ k0 (dictGet_none_of_notin rest k0 hnd.1),
        applyKey_obj d k0 uo dd hd, dictGet_dictSet_self]
    · rw [if_neg h0] at hu
      rw [deepUpdate_cons]
      exact ih _ k uo dd hnd.2 hu (by rw [dictGet_applyKey_ne d v0 h0]; exact hd)

theorem deepUpdate_get_repl (u : List (PyStr × JVal)) :
    ∀ d k v, (u.map Prod.fst).Nodup → dictGet u k = some v →
      ((∀ e, v ≠ JVal.obj e) ∨ (∀ e, dictGet d k ≠ some (JVal.obj e))) →
      dictGet (deepUpdate d u) k = some v := by
  induction u with
  | nil => intro d k v _ h; exact absurd h (by simp [dictGet])
  | cons e rest ih =>
    obtain ⟨k0, v0⟩ := e
    intro d k v hnd hu hv
    simp only [List.map_cons, List.nodup_cons] at hnd
    unfold dictGet at hu
    by_cases h0 : k0 = k
    · rw [if_pos h0] at hu
      injection hu with hveq
      subst hveq h0
      rw [deepUpdate_cons,
        deepUpdate_get_notin rest _ k0 (dictGet_none_of_notin rest k0 hnd.1),
        applyKey_repl d k0 v0 hv, dictGet_dictSet_self]
    · rw [if_neg h0] at hu
      rw [deepUpdate_cons]
      refine ih _ k v hnd.2 hu ?_
      rcases hv with hv | hv
      · exact Or.inl hv
      · refine Or.inr fun e he => hv e ?_
        rw [dictGet_applyKey_ne d v0 h0] at he
        exact he

/-- C1: `deep_update(base, override)` — for every key of the override, when
both sides hold a dict at that key the merge recurses, and otherwise the
override's value (including a full list) replaces the base's value; keys
absent from the override keep their base value, and every key present in the
base is present in the result.  The Python function deep-copies its inputs
and builds a new structure, so it never mutates them; the embedding is a
pure function, where that is intrinsic.  The `Nodup` hypothesis states that
the override's keys are distinct, which Python's `dict` guarantees. -/
theorem deepUpdate_spec (d u : List (PyStr × JVal))
    (hnd : (u.map Prod.fst).Nodup) :
    (∀ k, (dictGet d k).isSome → (dictGet (deepUpdate d u) k).isSome) ∧
    (∀ k uo dd, dictGet u k = some (.obj uo) → dictGet d k = some (.obj dd) →
      dictGet (deepUpdate d u) k = some (.obj (deepUpdate dd uo))) ∧
    (∀ k v, dictGet u k = some v →
      ((∀ e, v ≠ JVal.obj e) ∨ (∀ e, dictGet d k ≠ some (JVal.obj e))) →
      dictGet (deepUpdate d u) k = some v) ∧
    (∀ k, dictGet u k = none → dictGet (deepUpdate d u) k = dictGet d k) :=
  ⟨fun k => deepUpdate_isSome u d k,
   fun k uo dd => deepUpdate_get_obj u d k uo dd hnd,
   fun k v => deepUpdate_get_repl u d k v hnd,
   fun k => deepUpdate_get_notin u d k⟩

/-- A small base configuration in the shape of the source's template. -/
def baseSample : List (PyStr × JVal) :=
  [(pys "name", .str (pys "base")),
   (pys "chapter_list", .obj [(pys "count_per_page", .num 0), (pys "items", .arr [])]),
   (pys "tags", .arr [.str (pys "a")])]

/-- A small override configuration: one nested dict, one list, one new key. -/
def overrideSample : List (PyStr × JVal) :=
  [(pys "chapter_list", .obj [(pys "count_per_page", .num 50)]),
   (pys "tags", .arr []),
   (pys "extra", .boolean true)]

theorem deepUpdate_spec_witness :
    (dictGet (deepUpdate baseSample overrideSample) (pys "name")).isSome = true ∧
    dictGet (deepUpdate baseSample overrideSample) (pys "chapter_list") =
      some (.obj (deepUpdate
        [(pys "count_per_page", .num 0), (pys "items", .arr [])]
        [(pys "count_per_page", .num 50)])) ∧
    dictGet (deepUpdate baseSample overrideSample) (pys "tags") =
      some (.arr []) := by
  have h := deepUpdate_spec baseSample overrideSample (by decide)
  exact ⟨h.1 (pys "name") (by rfl),
    h.2.1 (pys "chapter_list") _ _ rfl rfl,
    h.2.2.1 (pys "tags") (.arr []) rfl
      (Or.inl fun e he => JVal.noConfusion he)⟩

/-! ## Description extraction: `extract_description` (lines 577-583) and
`extract_book_description` (lines 642-649). -/

/-- Python's whitespace test for `str.strip()`, on the ASCII whitespace
characters (the only ones the modelled documents contain). -/
def pyIsSpace (c : Char) : Bool :=
  c == ' ' || c == '\t' || c == '\n' || c == '\r' || c == '\x0b' || c == '\x0c'

/-- Python's `str.strip()`: drop whitespace from both ends. -/
def pyStrip (s : PyStr) : PyStr :=
  ((s.dropWhile pyIsSpace).reverse.dropWhile pyIsSpace).reverse

/-- Abstract CSS selection: `select_one(selector).text` on a document
fragment, `none` when no element matches the selector. -/
structure SelectEnv (Doc : Type) where
  selectText : Doc → PyStr → Option PyStr

/-- Embedding of `extract_description`: first selector whose element text
strips to nonempty wins, truncated to 200 characters; otherwise empty. -/
def extractDescription {Doc : Type} (env : SelectEnv Doc) (frag : Doc) :
    List PyStr → PyStr
  | [] => []
  | sel :: rest =>
    match env.selectText frag sel with
    | some t =>
        if (pyStrip t).isEmpty then extractDescription env frag rest
        else (pyStrip t).take 200
    | none => extractDescription env frag rest

/-- Embedding of `extract_book_description`: same cascade with a 500
character truncation. -/
def extractBookDescription {Doc : Type} (env : SelectEnv Doc) (frag : Doc) :
    List PyStr → PyStr
  | [] => []
  | sel :: rest =>
    match env.selectText frag sel with
    | some t =>
        if (pyStrip t).isEmpty then extractBookDescription env frag rest
        else (pyStrip t).take 500
    | none => extractBookDescription env frag rest

/-- C10: search descriptions are truncated to at most 200 characters, book
descriptions to at most 500, and when no selector yields non-empty stripped
text both extractors return the empty string. -/
theorem extractDescription_bounds {Doc : Type} (env : SelectEnv Doc) (frag : Doc)
    (sels : List PyStr) :
    (extractDescription env frag sels).length ≤ 200 ∧
    (extractBookDescription env frag sels).length ≤ 500 ∧
    ((∀ sel ∈ sels, ∀ t, env.selectText frag sel = some t → pyStrip t = []) →
      extractDescription env frag sels = [] ∧
        extractBookDescription env frag sels = []) := by
  induction sels with
  | nil => exact ⟨by simp [extractDescription], by simp [extractBookDescription],
      fun _ => ⟨rfl, rfl⟩⟩
  | cons sel rest ih =>
    refine ⟨?_, ?_, ?_⟩
    · unfold extractDescription
      cases hsel : env.selectText frag sel with
      | none => exact ih.1
      | some t =>
        dsimp only
        by_cases he : (pyStrip t).isEmpty
        · rw [if_pos he]; exact ih.1
        · rw [if_neg he, List.length_take]
          omega
    · unfold extractBookDescription
      cases hsel : env.selectText frag sel with
      | none => exact ih.2.1
      | some t =>
        dsimp only
        by_cases he : (pyStrip t).isEmpty
        · rw [if_pos he]; exact ih.2.1
        · rw [if_neg he, List.length_take]
          omega
    · intro hall
      have hrest : ∀ s ∈ rest, ∀ t, env.selectText frag s = some t → pyStrip t = [] :=
        fun s hs => hall s (List.mem_cons_of_mem _ hs)
      have ⟨ih1, ih2⟩ := ih.2.2 hrest
      constructor
      · unfold extractDescription
        cases hsel : env.selectText frag sel with
        | none => exact ih1
        | some t =>
          dsimp only
          have hh := hall sel (List.mem_cons_self _ _) t hsel
          rw [if_pos (by rw [hh]; rfl)]
          exact ih1
      · unfold extractBookDescription
        cases hsel : env.selectText frag sel with
        | none => exact ih2
        | some t =>
          dsimp only
          have hh := hall sel (List.mem_cons_self _ _) t hsel
          rw [if_pos (by rw [hh]; rfl)]
          exact ih2

theorem extractDescription_bounds_witness :
    extractDescription ⟨fun (_ : Unit) _ => some (pys "   ")⟩ () [pys ".desc"] = [] ∧
      extractBookDescription ⟨fun (_ : Unit) _ => some (pys "   ")⟩ () [pys ".desc"] = [] := by
  refine (extractDescription_bounds ⟨fun (_ : Unit) _ => some (pys "   ")⟩ ()
    [pys ".desc"]).2.2 ?_
  intro sel hsel t ht
  injection ht with h
  rw [← h]
  rfl

/-! ## Parser registry: `ParserLoader.get_parser`, `create_base_parser` and
`get_parser_for_source` (`src/parsers/parser_loader.py` lines 68-115 and
153-167), with `BaseBookSourceParser.get_parser_name`
(`src/parsers/base_parser.py` lines 785-796). -/

/-- The name-bearing part of a registered parser (and, equally, of a source
config): `source_config['name']` and the optional `source_config['show_name']`.
These are the only fields `get_parser` consults. -/
structure PRec where
  name : PyStr
  showName : Option PyStr
deriving DecidableEq

/-- Embedding of `get_parser_name`: the raw configured names, name first,
then the show name, each only when truthy.  (The code's final fallback for a
parser with neither field would read `self.__name__`, which does not exist on
instances and raises; registry-created parsers always carry a name.) -/
def getParserName (p : PRec) : List PyStr :=
  (if p.name.isEmpty then [] else [p.name]) ++
    (match p.showName with
     | some s => if s.isEmpty then [] else [s]
     | none => [])

/-- The query normalization of `get_parser`:
`source_name.lower().replace(' ', '').replace('-', '').replace('_', '')`. -/
def normalizeName (s : PyStr) : PyStr :=
  (s.map Char.toLower).filter (fun c => !(c == ' ' || c == '-' || c == '_'))

/-- Embedding of `ParserLoader.get_parser`: walk the registered parsers in
order and return the first whose raw name list has the normalized query as a
member (`parser_key in parser.get_parser_name()` is Python list membership);
`none` (Python's implicit `None`) when no parser matches. -/
def getParser : List PRec → PyStr → Option PRec
  | [], _ => none
  | p :: rest, nm =>
      if (getParserName p).contains (normalizeName nm) then some p
      else getParser rest nm

/-- Registry state: the in-memory parser list and the persisted JSON list of
source configs (modelled by their name-bearing fields). -/
structure Registry where
  parsers : List PRec
  persisted : List PRec

/-- Embedding of `ParserLoader.create_base_parser` with `save=True`: append
the config to the persisted JSON list and the new generic parser (whose name
fields are the config's) to the registry. -/
def createBaseParser (reg : Registry) (cfg : PRec) : PRec × Registry :=
  (cfg, ⟨reg.parsers ++ [cfg], reg.persisted ++ [cfg]⟩)

/-- Embedding of `get_parser_for_source`: resolve by name, create-on-miss. -/
def getParserForSource (reg : Registry) (nm : PyStr) (cfg : PRec) : PRec × Registry :=
  match getParser reg.parsers nm with
  | some p => (p, reg)
  | none => createBaseParser reg cfg

/-- The claim's reading of resolution (C8): the first registered parser whose
NORMALIZED alias list contains the normalized query. -/
def resolveByNameClaimed (ps : List PRec) (nm : PyStr) : Option PRec :=
  ps.find? (fun p => ((getParserName p).map normalizeName).contains (normalizeName nm))

/-- C8: the claimed resolution disagrees with the code.  With one registered
parser named "ABC" and the query "ABC", the claim's normalized-alias match
succeeds, but the code compares the lower-cased query against the raw alias
list and misses (so a duplicate generic parser would be created). -/
theorem getParser_claim_false :
    getParser [⟨pys "ABC", none⟩] (pys "ABC") = none ∧
      resolveByNameClaimed [⟨pys "ABC", none⟩] (pys "ABC") =
        some ⟨pys "ABC", none⟩ := by
  constructor <;> rfl

/-- C8 (amended): resolution normalizes only the query (removing spaces,
hyphens and underscores and lower-casing) and returns the first registered
parser whose RAW name list contains the normalized query as an element; on a
hit the registry is unchanged, and on a miss a generic parser built from the
supplied config is returned, registered, and appended to the persisted JSON
list. -/
theorem getParserForSource_amended (reg : Registry) (nm : PyStr) (cfg : PRec) :
    getParser reg.parsers nm =
      reg.parsers.find? (fun p => (getParserName p).contains (normalizeName nm)) ∧
    (∀ p, getParser reg.parsers nm = some p →
      getParserForSource reg nm cfg = (p, reg)) ∧
    (getParser reg.parsers nm = none →
      getParserForSource reg nm cfg =
        (cfg, ⟨reg.parsers ++ [cfg], reg.persisted ++ [cfg]⟩)) := by
  refine ⟨?_, ?_, ?_⟩
  · obtain ⟨ps, _⟩ := reg
    induction ps with
    | nil => rfl
    | cons p rest ih =>
      unfold getParser
      rw [List.find?_cons]
      cases hc : (getParserName p).contains (normalizeName nm) with
      | true => rfl
      | false => exact ih
  · intro p hp
    unfold getParserForSource
    rw [hp]
  · intro hp
    unfold getParserForSource
    rw [hp]
    rfl

theorem getParserForSource_amended_witness :
    getParserForSource ⟨[⟨pys "笔趣阁", none⟩], []⟩ (pys "笔趣阁") ⟨pys "cfg", none⟩ =
      (⟨pys "笔趣阁", none⟩, ⟨[⟨pys "笔趣阁", none⟩], []⟩) ∧
    getParserForSource ⟨[⟨pys "笔趣阁", none⟩], []⟩ (pys "other") ⟨pys "cfg", none⟩ =
      (⟨pys "cfg", none⟩,
        ⟨[⟨pys "笔趣阁", none⟩, ⟨pys "cfg", none⟩], [⟨pys "cfg", none⟩]⟩) := by
  constructor
  · exact (getParserForSource_amended ⟨[⟨pys "笔趣阁", none⟩], []⟩ (pys "笔趣阁")
      ⟨pys "cfg", none⟩).2.1 ⟨pys "笔趣阁", none⟩ (by rfl)
  · exact (getParserForSource_amended ⟨[⟨pys "笔趣阁", none⟩], []⟩ (pys "other")
      ⟨pys "cfg", none⟩).2.2 (by rfl)

/-! ## Fetch-and-paginate loops.  Documents and per-document hooks are
abstract; a fetch returns `Except Unit Doc` with `Except.error` modelling a
raised exception.  Loop outcomes distinguish a normal value, a raised
exception, and fuel exhaustion (the Python `while` has no bound).  Every
loop also returns the list of URLs for which a fetch was attempted. -/

/-- Outcome of running one of the Python `while` loops. -/
inductive PyRes (α : Type) where
  | ok (a : α)
  | raised
  | fuelOut
deriving DecidableEq

/-- The `ChapterInfo` data class (title, url, chapter_number). -/
structure ChapterInfo where
  title : PyStr
  url : PyStr
  chapterNumber : Nat
deriving DecidableEq

/-- The environment of the chapter-list loops: fetch, the
`parse_chapter_list(soup, book_url, chno)` hook and the
`get_next_chapter_list_page(soup, book_url)` hook. -/
structure ChapterEnv (Doc : Type) where
  fetch : PyStr → Except Unit Doc
  parseChapters : Doc → PyStr → Nat → List ChapterInfo
  nextListPage : Doc → PyStr → Option PyStr

/-- The shared `while next_page:` loop body of `get_chapter_list` and
`update_chapter_list`: fetch, parse with the running chapter count offset by
`base`, extend, follow the next-page hook.  `base` is `0` for
`get_chapter_list` and `page_count * count_per_page` for
`update_chapter_list`, matching the third argument the code passes to
`parse_chapter_list`. -/
def chapterLoop {Doc : Type} (env : ChapterEnv Doc) (bookUrl : PyStr) (base : Nat) :
    Nat → List ChapterInfo → Option PyStr → PyRes (List ChapterInfo) × List PyStr
  | _, acc, none => (.ok acc, [])
  | 0, _, some _ => (.fuelOut, [])
  | fuel + 1, acc, some url =>
    match env.fetch url with
    | .error _ => (.raised, [url])
    | .ok doc =>
        let r := chapterLoop env bookUrl base fuel
          (acc ++ env.parseChapters doc bookUrl (base + acc.length))
          (env.nextListPage doc bookUrl)
        (r.1, url :: r.2)

/-- Embedding of `get_chapter_list`: run the loop from the book URL with an
empty accumulator; the enclosing `try/except` converts a raised exception
into the empty list. -/
def getChapterList {Doc : Type} (env : ChapterEnv Doc) (fuel : Nat)
    (bookUrl : PyStr) : PyRes (List ChapterInfo) × List PyStr :=
  let r := chapterLoop env bookUrl 0 fuel [] (some bookUrl)
  match r.1 with
  | .raised => (.ok [], r.2)
  | x => (x, r.2)

/-- The chapter-list paging configuration: `chapter_list.count_per_page`,
`chapter_list.page_url.fmt` (`none` models a missing or empty, hence falsy,
format string) and `chapter_list.page_url.skip_endding`. -/
structure ChapterCfg where
  countPerPage : Int
  pageUrlFmt : Option PyStr
  skipEndding : PyStr

/-- Python's `str.format` restricted to the two named fields the source's
format strings use: each occurrence of the `book_url` and `page` fields is
substituted. -/
def pyFormat : PyStr → PyStr → Nat → PyStr
  | '{' :: 'b' :: 'o' :: 'o' :: 'k' :: '_' :: 'u' :: 'r' :: 'l' :: '}' :: rest,
      bookUrl, page => bookUrl ++ pyFormat rest bookUrl page
  | '{' :: 'p' :: 'a' :: 'g' :: 'e' :: '}' :: rest, bookUrl, page =>
      (Nat.toDigits 10 page) ++ pyFormat rest bookUrl page
  | c :: rest, bookUrl, page => c :: pyFormat rest bookUrl page
  | [], _, _ => []

/-- Embedding of `chapter_list_page_url`: apply the configured format
template to the book URL with the `skip_endding` characters right-stripped,
or return the book URL unchanged when no template is configured. -/
def chapterListPageUrl (cfg : ChapterCfg) (page : Nat) (bookUrl : PyStr) : PyStr :=
  match cfg.pageUrlFmt with
  | some fmt => pyFormat fmt (pyRstripSet cfg.skipEndding bookUrl) page
  | none => bookUrl

/-- Embedding of `update_chapter_list`.  With a non-positive
`count_per_page` it takes the whole `get_chapter_list` result and drops the
first `n` entries; otherwise it starts the loop at the page numbered
`n / count_per_page + 1` with the accumulated-count base
`(n / count_per_page) * count_per_page`, and keeps only chapters whose
number exceeds `n`; its `try/except` converts a raised exception into the
empty list. -/
def updateChapterList {Doc : Type} (env : ChapterEnv Doc) (cfg : ChapterCfg)
    (fuel : Nat) (bookUrl : PyStr) (n : Nat) : PyRes (List ChapterInfo) × List PyStr :=
  if cfg.countPerPage ≤ 0 then
    let r := getChapterList env fuel bookUrl
    (match r.1 with
     | .ok l => .ok (l.drop n)
     | x => x, r.2)
  else
    let k := cfg.countPerPage.toNat
    let pc := n / k
    let r := chapterLoop env bookUrl (pc * k) fuel []
      (some (chapterListPageUrl cfg (pc + 1) bookUrl))
    (match r.1 with
     | .ok l => .ok (l.filter (fun c => n < c.chapterNumber))
     | .raised => .ok []
     | .fuelOut => .fuelOut, r.2)

theorem chapterLoop_trace_head {Doc : Type} (env : ChapterEnv Doc) (bookUrl : PyStr)
    (base f : Nat) (acc : List ChapterInfo) (url : PyStr) :
    (chapterLoop env bookUrl base (f + 1) acc (some url)).2.head? = some url := by
  unfold chapterLoop
  cases env.fetch url <;> rfl

/-- C3: with a non-positive `count_per_page`, `update_chapter_list` returns
the whole fetched chapter list minus its first `n` entries; with
`count_per_page = k > 0` it starts fetching at the page numbered
`n / k + 1` (the URL built by `chapter_list_page_url` from the configured
format template), and every chapter it returns has `chapter_number > n`. -/
theorem updateChapterList_spec {Doc : Type} (env : ChapterEnv Doc) (cfg : ChapterCfg)
    (fuel : Nat) (bookUrl : PyStr) (n : Nat) :
    (cfg.countPerPage ≤ 0 → ∀ l,
      (getChapterList env fuel bookUrl).1 = .ok l →
      (updateChapterList env cfg fuel bookUrl n).1 = .ok (l.drop n)) ∧
    (∀ k : Nat, cfg.countPerPage = (k : Int) → 0 < k →
      (1 ≤ fuel →
        (updateChapterList env cfg fuel bookUrl n).2.head? =
          some (chapterListPageUrl cfg (n / k + 1) bookUrl)) ∧
      (∀ l, (updateChapterList env cfg fuel bookUrl n).1 = .ok l →
        ∀ c ∈ l, n < c.chapterNumber)) := by
  constructor
  · intro hle l hok
    unfold updateChapterList
    rw [if_pos hle]
    dsimp only
    rw [hok]
  · intro k hk hkpos
    have hnotle : ¬ cfg.countPerPage ≤ 0 := by
      rw [hk]
      omega
    have htn : cfg.countPerPage.toNat = k := by
      rw [hk]
      rfl
    constructor
    · intro hf
      obtain ⟨f, rfl⟩ : ∃ f, fuel = f + 1 := ⟨fuel - 1, by omega⟩
      unfold updateChapterList
      rw [if_neg hnotle]
      dsimp only
      rw [htn, chapterLoop_trace_head]
    · intro l hl c hc
      revert hl
      unfold updateChapterList
      rw [if_neg hnotle]
      dsimp only
      rw [htn]
      cases hr : (chapterLoop env bookUrl (n / k * k) fuel []
          (some (chapterListPageUrl cfg (n / k + 1) bookUrl))).1 with
      | ok l0 =>
        intro hl
        dsimp only at hl
        injection hl with hl
        rw [← hl] at hc
        exact (List.mem_filter.mp hc).2 |> of_decide_eq_true
      | raised =>
        intro hl
        dsimp only at hl
        injection hl with hl
        rw [← hl] at hc
        cases hc
      | fuelOut =>
        intro hl
        exact PyRes.noConfusion hl

/-- A one-page chapter environment for the incremental-update scenario. -/
def chapterEnvW : ChapterEnv Unit :=
  ⟨fun _ => .ok (), fun _ _ m => [⟨pys "t", pys "u", m + 21⟩], fun _ _ => none⟩

/-- The spec's end-to-end scenario configuration: `count_per_page = 50` with
a page-URL format template. -/
def chapterCfgW : ChapterCfg :=
  ⟨50, some (pys "\x7bbook_url\x7d/page/\x7bpage\x7d"), pys "/"⟩

theorem updateChapterList_spec_witness :
    (updateChapterList chapterEnvW chapterCfgW 1 (pys "http://s/b/") 120).2.head? =
      some (pys "http://s/b/page/3") ∧
    ∀ c ∈ [ChapterInfo.mk (pys "t") (pys "u") 121], 120 < c.chapterNumber := by
  have h := (updateChapterList_spec chapterEnvW chapterCfgW 1 (pys "http://s/b/") 120).2
    50 rfl (by decide)
  constructor
  · have h1 := h.1 (by decide)
    rw [h1]
    rfl
  · intro c hc
    exact h.2 [ChapterInfo.mk (pys "t") (pys "u") 121] (by rfl) c hc

/-! ## Chapter content: `get_chapter_content` (lines 320-346),
`get_chapter_next_section` (lines 410-420) and `build_full_url`
(lines 698-708). -/

/-- Embedding of `build_full_url`, with the standard library's `urljoin`
supplied as a parameter (it is external to the repository): empty URLs give
the empty string, absolute `http...` URLs pass through, root-relative URLs
join against the base, and other relative URLs join against the base with a
trailing slash appended. -/
def buildFullUrl (ujoin : PyStr → PyStr → PyStr) (url baseUrl : PyStr) : PyStr :=
  if url.isEmpty then []
  else if (pys "http").isPrefixOf url then url
  else if url.head? = some '/' then ujoin baseUrl url
  else ujoin (baseUrl ++ pys "/") url

/-- The content configuration relevant here: `content.next`, the next-section
selector (`none` when not configured; an empty string is falsy in Python and
also disables it). -/
structure ContentCfg where
  nextSectionSelector : Option PyStr

/-- The environment of the chapter-content loop: fetch, the
`parse_chapter_content` hook (`none` models its Python `None` return, which
makes `content += None` raise a `TypeError`), the selection
`soup.select_one(next_section_selector).get('href')` (`none` when no element
matches; a present element with no `href` attribute is modelled as an empty
href, which `build_full_url` also maps to the empty string), and the
standard library's `urljoin`. -/
structure ContentEnv (Doc : Type) where
  fetch : PyStr → Except Unit Doc
  parseContent : Doc → Option PyStr
  selectNextHref : Doc → Option PyStr
  urljoin : PyStr → PyStr → PyStr

/-- Embedding of `get_chapter_next_section`: nothing without a configured
(truthy) selector; otherwise select the element, build the full URL against
the chapter URL, and return it only when `next_section_match` accepts it
against the current section URL. -/
def getChapterNextSection {Doc : Type} (env : ContentEnv Doc) (cfg : ContentCfg)
    (doc : Doc) (chapterUrl chapterSec : PyStr) : Option PyStr :=
  match cfg.nextSectionSelector with
  | none => none
  | some sel =>
    if sel.isEmpty then none
    else
      match env.selectNextHref doc with
      | none => none
      | some href =>
        let nextSec := buildFullUrl env.urljoin href chapterUrl
        if nextSectionMatch nextSec chapterSec then some nextSec else none

/-- The `while chapter_sec:` loop of `get_chapter_content`: fetch, append the
parsed content (a `None` parse raises), follow `get_chapter_next_section`. -/
def contentLoop {Doc : Type} (env : ContentEnv Doc) (cfg : ContentCfg)
    (chapterUrl : PyStr) :
    Nat → PyStr → Option PyStr → PyRes PyStr × List PyStr
  | _, acc, none => (.ok acc, [])
  | 0, _, some _ => (.fuelOut, [])
  | fuel + 1, acc, some sec =>
    match env.fetch sec with
    | .error _ => (.raised, [sec])
    | .ok doc =>
      match env.parseContent doc with
      | none => (.raised, [sec])
      | some t =>
        let r := contentLoop env cfg chapterUrl fuel (acc ++ t)
          (getChapterNextSection env cfg doc chapterUrl sec)
        (r.1, sec :: r.2)

/-- Embedding of `get_chapter_content`: run the loop from the chapter URL;
the enclosing `try/except` converts a raised exception into `None`. -/
def getChapterContent {Doc : Type} (env : ContentEnv Doc) (cfg : ContentCfg)
    (fuel : Nat) (chapterUrl : PyStr) : PyRes (Option PyStr) × List PyStr :=
  let r := contentLoop env cfg chapterUrl fuel [] (some chapterUrl)
  (match r.1 with
   | .ok s => .ok (some s)
   | .raised => .ok none
   | .fuelOut => .fuelOut, r.2)

theorem contentLoop_none {Doc : Type} (env : ContentEnv Doc) (cfg : ContentCfg)
    (chapterUrl : PyStr) (fuel : Nat) (acc : PyStr) :
    contentLoop env cfg chapterUrl fuel acc none = (.ok acc, []) := by
  cases fuel <;> rfl

/-- C6: when, on every fetched document, the configured next-section selector
yields a URL that fails `next_section_match` against the current section URL,
the pagination loop of `get_chapter_content` terminates after exactly one
page fetch. -/
theorem getChapterContent_one_fetch {Doc : Type} (env : ContentEnv Doc)
    (cfg : ContentCfg) (chapterUrl : PyStr) (fuel : Nat) (hf : 1 ≤ fuel)
    (H : ∀ doc href, env.selectNextHref doc = some href →
      nextSectionMatch (buildFullUrl env.urljoin href chapterUrl) chapterUrl = false) :
    (getChapterContent env cfg fuel chapterUrl).2 = [chapterUrl] := by
  obtain ⟨f, rfl⟩ : ∃ f, fuel = f + 1 := ⟨fuel - 1, by omega⟩
  show (contentLoop env cfg chapterUrl (f + 1) [] (some chapterUrl)).2 = _
  unfold contentLoop
  cases hfetch : env.fetch chapterUrl with
  | error e => rfl
  | ok doc =>
    dsimp only
    cases hparse : env.parseContent doc with
    | none => rfl
    | some t =>
      dsimp only
      have hnext : getChapterNextSection env cfg doc chapterUrl chapterUrl = none := by
        unfold getChapterNextSection
        cases hsel : cfg.nextSectionSelector with
        | none => rfl
        | some sel =>
          dsimp only
          by_cases hemp : sel.isEmpty
          · rw [if_pos hemp]
          · rw [if_neg hemp]
            cases hhref : env.selectNextHref doc with
            | none => rfl
            | some href =>
              dsimp only
              rw [if_neg]
              rw [H doc href hhref]
              exact Bool.false_ne_true
      rw [hnext, contentLoop_none]

/-- A content environment whose selector always yields a non-advancing
candidate (`a.html` resolving to itself). -/
def contentEnvW : ContentEnv Unit :=
  ⟨fun _ => .ok (), fun _ => some (pys "text"), fun _ => some (pys "a.html"),
   fun _ u => u⟩

theorem getChapterContent_one_fetch_witness :
    (getChapterContent contentEnvW ⟨some (pys ".next")⟩ 7 (pys "a.html")).2 =
      [pys "a.html"] := by
  refine getChapterContent_one_fetch contentEnvW ⟨some (pys ".next")⟩ (pys "a.html") 7
    (by omega) ?_
  intro doc href h
  injection h with h
  rw [← h]
  rfl

/-! ## Search: `search_books` (lines 206-236).  Search results are an
abstract type `α` (the claims never inspect the fields of a result). -/

/-- The environment of the search loop: fetch, `parse_search_results` and
`get_next_search_page(soup, search_url)` (the code always passes the
original search URL, not the current page URL). -/
structure SearchEnv (Doc α : Type) where
  fetch : PyStr → Except Unit Doc
  parseResults : Doc → List α
  nextPage : Doc → PyStr → Option PyStr

/-- The `while page_url:` loop of `search_books`: fetch, extend with the
page's parsed results, break once `limit > 0` and the accumulated count has
reached it, otherwise follow the next-search-page hook. -/
def searchLoop {Doc α : Type} (env : SearchEnv Doc α) (limit : Int) (su : PyStr) :
    Nat → List α → Option PyStr → PyRes (List α) × List PyStr
  | _, acc, none => (.ok acc, [])
  | 0, _, some _ => (.fuelOut, [])
  | fuel + 1, acc, some url =>
    match env.fetch url with
    | .error _ => (.raised, [url])
    | .ok doc =>
      let bs := acc ++ env.parseResults doc
      if 0 < limit ∧ limit ≤ (bs.length : Int) then (.ok bs, [url])
      else
        let r := searchLoop env limit su fuel bs (env.nextPage doc su)
        (r.1, url :: r.2)

/-- Embedding of `search_books`: run the loop from the search URL; the
enclosing `try/except` converts a raised exception into the empty list. -/
def searchBooks {Doc α : Type} (env : SearchEnv Doc α) (limit : Int) (fuel : Nat)
    (su : PyStr) : PyRes (List α) × List PyStr :=
  let r := searchLoop env limit su fuel [] (some su)
  (match r.1 with
   | .raised => .ok []
   | x => x, r.2)

/-- C9: once the accumulated result count reaches a positive limit after a
page is parsed, the loop returns immediately — that page's full result list
included and nothing truncated, so the returned list's length may exceed the
limit and no further page is fetched; and every successful run returns
exactly the concatenation of the parsed results of the pages it fetched. -/
theorem searchBooks_limit_spec {Doc α : Type} (env : SearchEnv Doc α) (L : Int)
    (su : PyStr) :
    (∀ (f : Nat) (url : PyStr) (acc : List α) (doc : Doc),
      env.fetch url = .ok doc → 0 < L →
      L ≤ ((acc ++ env.parseResults doc).length : Int) →
      searchLoop env L su (f + 1) acc (some url) =
        (.ok (acc ++ env.parseResults doc), [url])) ∧
    (∀ (fuel : Nat) (acc : List α) (cur : Option PyStr) (l : List α)
        (tr : List PyStr),
      searchLoop env L su fuel acc cur = (.ok l, tr) →
      l = acc ++ (tr.map (fun u => match env.fetch u with
        | .ok d => env.parseResults d
        | .error _ => ([] : List α))).flatten) := by
  constructor
  · intro f url acc doc hfetch hL hlen
    unfold searchLoop
    rw [hfetch]
    dsimp only
    rw [if_pos ⟨hL, hlen⟩]
  · intro fuel
    induction fuel with
    | zero =>
      intro acc cur l tr h
      cases cur with
      | none =>
        injection h with h1 h2
        injection h1 with h1
        subst h1 h2
        simp
      | some url => exact absurd h (by intro hh; injection hh with h1 _; cases h1)
    | succ f ih =>
      intro acc cur l tr h
      cases cur with
      | none =>
        injection h with h1 h2
        injection h1 with h1
        subst h1 h2
        simp
      | some url =>
        unfold searchLoop at h
        cases hfetch : env.fetch url with
        | error e =>
          rw [hfetch] at h
          exact absurd h (by intro hh; injection hh with h1 _; cases h1)
        | ok doc =>
          rw [hfetch] at h
          dsimp only at h
          by_cases hbrk : 0 < L ∧ L ≤ (((acc ++ env.parseResults doc).length : Nat) : Int)
          · rw [if_pos hbrk] at h
            injection h with h1 h2
            injection h1 with h1
            subst h1
            subst h2
            simp [hfetch]
          · rw [if_neg hbrk] at h
            injection h with h1 h2
            rcases hres : searchLoop env L su f (acc ++ env.parseResults doc)
                (env.nextPage doc su) with ⟨res1, res2⟩
            rw [hres] at h1 h2
            dsimp only at h1 h2
            subst h2
            have := ih (acc ++ env.parseResults doc) (env.nextPage doc su) l res2
              (by rw [hres, h1])
            rw [this]
            simp [hfetch]

/-- A one-page search environment: three results per page and a next page
always on offer. -/
def searchEnvW : SearchEnv Unit Nat :=
  ⟨fun _ => .ok (), fun _ => [1, 2, 3], fun _ _ => some (pys "next")⟩

theorem searchBooks_limit_spec_witness :
    searchLoop searchEnvW 2 (pys "s") 9 [] (some (pys "s")) = (.ok [1, 2, 3], [pys "s"]) ∧
      [1, 2, 3] = ([] : List Nat) ++ ([[1, 2, 3]] : List (List Nat)).flatten := by
  constructor
  · exact (searchBooks_limit_spec searchEnvW 2 (pys "s")).1 8 (pys "s") [] ()
      rfl (by decide) (by decide)
  · have h := (searchBooks_limit_spec searchEnvW 2 (pys "s")).2 9 [] (some (pys "s"))
      [1, 2, 3] [pys "s"] ((searchBooks_limit_spec searchEnvW 2 (pys "s")).1 8
        (pys "s") [] () rfl (by decide) (by decide))
    exact h

/-! ## Book info: `get_book_info` (lines 238-258) with `parse_book_info`
(lines 466-485).  The parsed book info is an abstract type `β`. -/

/-- The environment of `get_book_info`: fetch and the `parse_book_info` hook;
an `Except.error` from the hook models an exception raised while parsing
(caught by `parse_book_info`'s own `try/except`, which returns `None`). -/
structure BookEnv (Doc β : Type) where
  fetch : PyStr → Except Unit Doc
  parseBookInfo : Doc → Except Unit (Option β)

/-- Embedding of `get_book_info`: a single fetch, then the parse hook; a
raised exception in either step yields `None`. -/
def getBookInfo {Doc β : Type} (env : BookEnv Doc β) (url : PyStr) : Option β :=
  match env.fetch url with
  | .error _ => none
  | .ok doc =>
    match env.parseBookInfo doc with
    | .error _ => none
    | .ok b => b

/-- C7: the top-level operations normalize raised exceptions to absence:
whenever the underlying loop raises, `search_books` and `get_chapter_list`
return the empty list and `get_chapter_content` returns `None`; and
`get_book_info` returns `None` whenever its fetch or its parse step raises.
No exception escapes to the caller. -/
theorem topLevel_error_normalization {D1 D2 D3 D4 α β : Type}
    (envS : SearchEnv D1 α) (envC : ChapterEnv D2) (envB : BookEnv D3 β)
    (envT : ContentEnv D4) (ccfg : ContentCfg) :
    (∀ (limit : Int) (fuel : Nat) (su : PyStr),
      (searchLoop envS limit su fuel [] (some su)).1 = .raised →
      (searchBooks envS limit fuel su).1 = .ok []) ∧
    (∀ (fuel : Nat) (url : PyStr),
      (chapterLoop envC url 0 fuel [] (some url)).1 = .raised →
      (getChapterList envC fuel url).1 = .ok []) ∧
    (∀ url : PyStr, envB.fetch url = .error () → getBookInfo envB url = none) ∧
    (∀ (url : PyStr) (doc : D3), envB.fetch url = .ok doc →
      envB.parseBookInfo doc = .error () → getBookInfo envB url = none) ∧
    (∀ (fuel : Nat) (url : PyStr),
      (contentLoop envT ccfg url fuel [] (some url)).1 = .raised →
      (getChapterContent envT ccfg fuel url).1 = .ok none) := by
  refine ⟨?_, ?_, ?_, ?_, ?_⟩
  · intro limit fuel su h
    unfold searchBooks
    dsimp only
    rw [h]
  · intro fuel url h
    unfold getChapterList
    dsimp only
    rw [h]
  · intro url h
    unfold getBookInfo
    rw [h]
  · intro url doc hf hp
    unfold getBookInfo
    rw [hf]
    dsimp only
    rw [hp]
  · intro fuel url h
    unfold getChapterContent
    dsimp only
    rw [h]

theorem topLevel_error_normalization_witness :
    (searchBooks (⟨fun _ => .error (), fun _ => [], fun _ _ => none⟩ :
        SearchEnv Unit Nat) 10 3 (pys "s")).1 = .ok [] ∧
    (getChapterList (⟨fun _ => .error (), fun _ _ _ => [], fun _ _ => none⟩ :
        ChapterEnv Unit) 3 (pys "b")).1 = .ok [] ∧
    getBookInfo (⟨fun _ => .error (), fun _ => .ok none⟩ :
        BookEnv Unit Nat) (pys "b") = none ∧
    getBookInfo (⟨fun _ => .ok (), fun _ => .error ()⟩ :
        BookEnv Unit Nat) (pys "b") = none ∧
    (getChapterContent (⟨fun _ => .error (), fun _ => none, fun _ => none,
        fun _ u => u⟩ : ContentEnv Unit) ⟨none⟩ 3 (pys "c")).1 = .ok none := by
  have h := topLevel_error_normalization
    (⟨fun _ => .error (), fun _ => [], fun _ _ => none⟩ : SearchEnv Unit Nat)
    (⟨fun _ => .error (), fun _ _ _ => [], fun _ _ => none⟩ : ChapterEnv Unit)
    (⟨fun _ => .ok (), fun _ => .error ()⟩ : BookEnv Unit Nat)
    (⟨fun _ => .error (), fun _ => none, fun _ => none, fun _ u => u⟩ :
      ContentEnv Unit) ⟨none⟩
  refine ⟨h.1 10 3 (pys "s") rfl, h.2.1 3 (pys "b") rfl, ?_, ?_, ?_⟩
  · exact topLevel_error_normalization
      (⟨fun _ => .error (), fun _ => [], fun _ _ => none⟩ : SearchEnv Unit Nat)
      (⟨fun _ => .error (), fun _ _ _ => [], fun _ _ => none⟩ : ChapterEnv Unit)
      (⟨fun _ => .error (), fun _ => .ok none⟩ : BookEnv Unit Nat)
      (⟨fun _ => .error (), fun _ => none, fun _ => none, fun _ u => u⟩ :
        ContentEnv Unit) ⟨none⟩ |>.2.2.1 (pys "b") rfl
  · exact h.2.2.2.1 (pys "b") () rfl rfl
  · exact h.2.2.2.2 3 (pys "c") rfl

/-! ## Content cleaning: `clean_content` (lines 758-771).

The removal patterns are Python regexes applied with
`re.sub(pattern, '', text, flags=re.IGNORECASE)`.  The engine below covers
exactly the constructs the default pattern list uses (literals, `.`, `\d`,
`\s`, `[ \t]`, greedy and lazy `*`, `+`, `^`, `$`) with Python's backtracking
preference order: a match attempt returns the list of possible remainders in
preference order, and substitution takes the first.  `^` is handled by the
anchored flag of a pattern (without `re.MULTILINE` it matches only at the
start of the string); `$` matches at the end of the string or just before a
final newline.  Character comparison is ASCII-case-insensitive
(`re.IGNORECASE`).  All recursions are structural so that concrete inputs
evaluate inside the kernel. -/

/-- Regular-expression syntax needed by the default `remove_patterns`. -/
inductive RE where
  | eps
  | ch (c : Char)
  | cls (p : Char → Bool)
  | seq (a b : RE)
  | star (greedy : Bool) (r : RE)
  | eol

/-- All remainders reachable by iterating the body matcher `m` zero or more
times, in backtracking preference order (greedy: longer first; lazy: shorter
first).  Only progressing iterations recurse; the fuel bounds the iteration
count and `length + 1` always suffices because every kept step consumes at
least one character. -/
def starIter (m : List Char → List (List Char)) (g : Bool) :
    Nat → List Char → List (List Char)
  | 0, s => [s]
  | fuel + 1, s =>
    let deeper := ((m s).filter (fun s2 => s2.length < s.length)).flatMap
      (starIter m g fuel)
    if g then deeper ++ [s] else s :: deeper

/-- The backtracking matcher: all remainders of matches of `re` at the head
of `s`, in Python's preference order. -/
def mtch : RE → List Char → List (List Char)
  | .eps, s => [s]
  | .ch _, [] => []
  | .ch c, a :: s => if a.toLower == c.toLower then [s] else []
  | .cls _, [] => []
  | .cls p, a :: s => if p a then [s] else []
  | .seq r1 r2, s => (mtch r1 s).flatMap (fun s1 => mtch r2 s1)
  | .star g r, s => starIter (fun s2 => mtch r s2) g (s.length + 1) s
  | .eol, s => if s = [] ∨ s = ['\n'] then [s] else []

/-- Global substitution scan of `re.sub` for an unanchored pattern: at each
position take the preferred match if any; an empty match substitutes and
then copies one character (Python 3.7+ semantics); a nonempty match
substitutes and continues after it.  Each step consumes at least one input
character, so fuel `length + 1` suffices. -/
def subScan (re : RE) (repl : List Char) : Nat → List Char → List Char
  | 0, s => s
  | fuel + 1, s =>
    match (mtch re s).head? with
    | some rem =>
      if rem.length == s.length then
        match s with
        | [] => repl
        | c :: s2 => repl ++ c :: subScan re repl fuel s2
      else repl ++ subScan re repl fuel rem
    | none =>
      match s with
      | [] => []
      | c :: s2 => c :: subScan re repl fuel s2

/-- Embedding of `re.sub(pattern, repl, s)` for a pattern given as an
anchored flag (a leading `^`) and a regex: an anchored pattern (without
`re.MULTILINE`) can only match at position 0, so it substitutes at most
once. -/
def pySub (p : Bool × RE) (repl : List Char) (s : List Char) : List Char :=
  if p.1 then
    match (mtch p.2 s).head? with
    | some rem => repl ++ rem
    | none => s
  else subScan p.2 repl (s.length + 1) s

/-- A literal regex from a string. -/
def lit (s : String) : RE := s.toList.foldr (fun c r => RE.seq (RE.ch c) r) RE.eps

/-- Sequence a list of regexes. -/
def seqList (l : List RE) : RE := l.foldr RE.seq RE.eps

/-- The class `\s` (ASCII part, see `pyIsSpace`). -/
def wsCls : RE := RE.cls pyIsSpace

/-- The class `.` (anything but a newline; `re.DOTALL` is not used). -/
def dotCls : RE := RE.cls (fun c => !(c == '\n'))

/-- The class `\d` (ASCII decimal digits). -/
def digCls : RE := RE.cls Char.isDigit

/-- Greedy `\s*`. -/
def wsStar : RE := RE.star true wsCls

/-- Greedy `.*`. -/
def dotStar : RE := RE.star true dotCls

/-- Lazy `.*?`. -/
def dotStarLazy : RE := RE.star false dotCls

/-- Greedy `\d+`. -/
def digPlus : RE := RE.seq digCls (RE.star true digCls)

/-- The default `content.remove_patterns` of `cfg_template`
(`src/parsers/base_parser.py` lines 96-113), in source order, each as the
anchored flag plus the regex body. -/
def defaultRemovePatterns : List (Bool × RE) :=
  [ (true,  seqList [wsStar, RE.eol]),
    (true,  seqList [wsStar, lit "广告", wsStar, RE.eol]),
    (true,  seqList [wsStar, lit "推荐", wsStar, RE.eol]),
    (true,  seqList [wsStar, lit "VIP", wsStar, RE.eol]),
    (true,  seqList [wsStar, lit "订阅", wsStar, RE.eol]),
    (false, seqList [dotStar, lit "第", digPlus, lit "章", dotStar]),
    (false, seqList [dotStar, lit "第(", digPlus, lit "/", digPlus, lit ")页", dotStar]),
    (false, seqList [dotStarLazy, lit "章节错误,点此举报", dotStarLazy]),
    (true,  seqList [wsStar, lit "本章未完，请翻页", dotStar, RE.eol]),
    (false, seqList [dotStar, lit "本小章还未完，请点击下一页", dotStar]),
    (false, seqList [dotStar, lit "这章没有结束，请点击下一页继续", dotStar]),
    (false, seqList [dotStar, lit "（未完待续）", dotStar]),
    (true,  seqList [wsStar, lit "未完待续", dotStar, RE.eol]),
    (true,  seqList [wsStar, lit "点击进入", dotStar, RE.eol]),
    (false, seqList [dotStar, lit "欢迎广大书友", dotStar]),
    (true,  seqList [wsStar, lit "更多免费章节", dotStar, RE.eol]) ]

/-- The characters of the class `[ \t]`. -/
def isSpTab (c : Char) : Bool := c == ' ' || c == '\t'

/-- Whether the whitespace prefix of `l` contains a newline (the condition
for `\n\s*\n` to match at a position whose character is a newline). -/
def hasNlIn (l : List Char) : Bool := (l.takeWhile pyIsSpace).contains '\n'

/-- The remainder after the greedy match of `\n\s*\n` starting just before
`l`: the whitespace prefix of `l` up to and including its last newline is
consumed; what is left of the whitespace prefix stays.  (Only used when
`hasNlIn l`.) -/
def dropThroughLastNl (l : List Char) : List Char :=
  let w := l.takeWhile pyIsSpace
  ((w.reverse.takeWhile (fun c => !(c == '\n'))).reverse) ++ l.drop w.length

/-- Embedding of `re.sub(r'\n\s*\n', '\n\n', text)` as a direct recursion:
scanning left to right, a newline whose following whitespace run contains
another newline starts a greedy match reaching the last newline of that run,
which is replaced by exactly two newlines; scanning resumes after the match.
The fuel `length + 1` always suffices since every step consumes at least one
character. -/
def collapseNlF : Nat → List Char → List Char
  | 0, s => s
  | _ + 1, [] => []
  | fuel + 1, c :: rest =>
    if c == '\n' && hasNlIn rest then
      '\n' :: '\n' :: collapseNlF fuel (dropThroughLastNl rest)
    else c :: collapseNlF fuel rest

/-- The newline-collapsing substitution at its sufficient fuel. -/
def collapseNl (s : List Char) : List Char := collapseNlF (s.length + 1) s

/-- Embedding of `re.sub(r'[ \t]+', ' ', text)`: each maximal run of spaces
and tabs becomes a single space. -/
def collapseSpF : Nat → List Char → List Char
  | 0, s => s
  | _ + 1, [] => []
  | fuel + 1, c :: rest =>
    if isSpTab c then ' ' :: collapseSpF fuel (rest.dropWhile isSpTab)
    else c :: collapseSpF fuel rest

/-- The space-collapsing substitution at its sufficient fuel. -/
def collapseSp (s : List Char) : List Char := collapseSpF (s.length + 1) s

/-- Embedding of `clean_content`: empty text passes through; otherwise every
configured removal pattern is substituted away in order, then blank-line
runs collapse to one blank line, space/tab runs collapse to one space, and
the result is stripped. -/
def cleanContent (pats : List (Bool × RE)) (text : PyStr) : PyStr :=
  if text.isEmpty then []
  else
    let t := pats.foldl (fun acc p => pySub p [] acc) text
    pyStrip (collapseSp (collapseNl t))

/-- C5: `clean_content` is not idempotent.  With the default configured
`remove_patterns`, cleaning "第1章\n广告" removes the 第N章-line (pattern 6)
and strips the remainder to "广告"; cleaning that result again lets the
anchored 广告-banner pattern (pattern 2, applied earlier in the list than
pattern 6) match the whole string, giving the empty string. -/
theorem cleanContent_not_idempotent :
    cleanContent defaultRemovePatterns (pys "第1章\n广告") = pys "广告" ∧
    cleanContent defaultRemovePatterns
        (cleanContent defaultRemovePatterns (pys "第1章\n广告")) = [] ∧
    cleanContent defaultRemovePatterns
        (cleanContent defaultRemovePatterns (pys "第1章\n广告")) ≠
      cleanContent defaultRemovePatterns (pys "第1章\n广告") := by
  refine ⟨by decide, by decide, by decide⟩

/-! ### Idempotence of the whitespace-normalization stage.

The final stage of `clean_content` (blank-line collapse, space collapse,
strip) is idempotent; this underlies the amended C5.  `Qb` describes the
newline shape `collapseNl` leaves behind (every newline is either followed
by a whitespace run free of newlines, or is the first of an adjacent pair
followed by such a run); `Rb` describes the space shape `collapseSp` leaves
behind (no tabs, no adjacent spaces). -/

def Qb : List Char → Bool
  | [] => true
  | c :: rest =>
    (if c == '\n' then
      (!hasNlIn rest) || (rest.head? == some '\n' && !hasNlIn rest.tail)
     else true) && Qb rest

def Rb : List Char → Bool
  | [] => true
  | c :: rest =>
    (!(c == '\t')) && (if c == ' ' then !(rest.head? == some ' ') else true) && Rb rest

theorem hasNlIn_nil : hasNlIn [] = false := rfl

theorem hasNlIn_cons (c : Char) (l : List Char) :
    hasNlIn (c :: l) = (pyIsSpace c && ((c == '\n') || hasNlIn l)) := by
  unfold hasNlIn
  rw [List.takeWhile_cons]
  by_cases h : pyIsSpace c
  · rw [if_pos h, h]
    simp only [List.contains_cons, Bool.true_and]
    congr 1
    by_cases hc : c = '\n'
    · simp [hc]
    · have hc2 : ¬ '\n' = c := fun hh => hc hh.symm
      simp [hc, hc2]
  · have h' : pyIsSpace c = false := by
      exact Bool.not_eq_true _ ▸ Bool.eq_false_iff.mpr h
    rw [if_neg h, h']
    simp [List.contains]

theorem hasNlIn_cons_nl (l : List Char) : hasNlIn ('\n' :: l) = true := by
  rw [hasNlIn_cons]
  rfl

theorem length_dropThroughLastNl_lt {l : List Char} (hl : hasNlIn l = true) :
    (dropThroughLastNl l).length < l.length := by
  unfold dropThroughLastNl
  unfold hasNlIn at hl
  set w := l.takeWhile pyIsSpace with hw
  have hwl : w.length ≤ l.length := by
    rw [hw]
    exact (List.takeWhile_prefix pyIsSpace).length_le
  have hmem : '\n' ∈ w := List.elem_iff.mp hl
  have htw : (w.reverse.takeWhile (fun c => !(c == '\n'))).length < w.length := by
    have hle : (w.reverse.takeWhile (fun c => !(c == '\n'))).length ≤ w.reverse.length :=
      (List.takeWhile_prefix _).length_le
    rw [List.length_reverse] at hle
    rcases Nat.lt_or_ge (w.reverse.takeWhile (fun c => !(c == '\n'))).length w.length
      with h | h
    · exact h
    · exfalso
      have heq : w.reverse.takeWhile (fun c => !(c == '\n')) = w.reverse :=
        List.IsPrefix.eq_of_length_le (List.takeWhile_prefix _)
          (by rw [List.length_reverse]; exact h)
      have hall := List.takeWhile_eq_self_iff.mp heq '\n' (by
        rw [List.mem_reverse]
        exact hmem)
      simp at hall
  rw [List.length_append, List.length_reverse, List.length_drop]
  omega

theorem collapseNlF_irrel : ∀ f1 f2 s, s.length < f1 → s.length < f2 →
    collapseNlF f1 s = collapseNlF f2 s := by
  intro f1
  induction f1 with
  | zero => intro f2 s h; omega
  | succ f ih =>
    intro f2 s h1 h2
    obtain ⟨f2', rfl⟩ : ∃ m, f2 = m + 1 := ⟨f2 - 1, by omega⟩
    cases s with
    | nil => rfl
    | cons c rest =>
      unfold collapseNlF
      by_cases hc : (c == '\n' && hasNlIn rest) = true
      · rw [if_pos hc, if_pos hc]
        have hlt := length_dropThroughLastNl_lt (Bool.and_eq_true _ _ |>.mp hc).2
        simp only [List.length_cons] at h1 h2
        rw [ih f2' (dropThroughLastNl rest) (by omega) (by omega)]
      · rw [if_neg hc, if_neg hc]
        simp only [List.length_cons] at h1 h2
        rw [ih f2' rest (by omega) (by omega)]

theorem collapseNl_nil : collapseNl [] = [] := rfl

theorem collapseNl_cons (c : Char) (rest : List Char) :
    collapseNl (c :: rest) =
      if c == '\n' && hasNlIn rest then
        '\n' :: '\n' :: collapseNl (dropThroughLastNl rest)
      else c :: collapseNl rest := by
  show collapseNlF (rest.length + 2) (c :: rest) = _
  unfold collapseNlF
  by_cases hc : (c == '\n' && hasNlIn rest) = true
  · rw [if_pos hc, if_pos hc]
    have hlt := length_dropThroughLastNl_lt (Bool.and_eq_true _ _ |>.mp hc).2
    rw [collapseNlF_irrel (rest.length + 1) ((dropThroughLastNl rest).length + 1)
      (dropThroughLastNl rest) (by omega) (by omega)]
    rfl
  · rw [if_neg hc, if_neg hc]
    rfl

theorem collapseSpF_irrel : ∀ f1 f2 s, s.length < f1 → s.length < f2 →
    collapseSpF f1 s = collapseSpF f2 s := by
  intro f1
  induction f1 with
  | zero => intro f2 s h; omega
  | succ f ih =>
    intro f2 s h1 h2
    obtain ⟨f2', rfl⟩ : ∃ m, f2 = m + 1 := ⟨f2 - 1, by omega⟩
    cases s with
    | nil => rfl
    | cons c rest =>
      unfold collapseSpF
      by_cases hc : isSpTab c = true
      · rw [if_pos hc, if_pos hc]
        have hlt := (List.dropWhile_suffix isSpTab (l := rest)).length_le
        simp only [List.length_cons] at h1 h2
        rw [ih f2' (rest.dropWhile isSpTab) (by omega) (by omega)]
      · rw [if_neg hc, if_neg hc]
        simp only [List.length_cons] at h1 h2
        rw [ih f2' rest (by omega) (by omega)]

theorem collapseSp_nil : collapseSp [] = [] := rfl

theorem collapseSp_cons (c : Char) (rest : List Char) :
    collapseSp (c :: rest) =
      if isSpTab c then ' ' :: collapseSp (rest.dropWhile isSpTab)
      else c :: collapseSp rest := by
  show collapseSpF (rest.length + 2) (c :: rest) = _
  unfold collapseSpF
  by_cases hc : isSpTab c = true
  · rw [if_pos hc, if_pos hc]
    have hlt := (List.dropWhile_suffix isSpTab (l := rest)).length_le
    rw [collapseSpF_irrel (rest.length + 1) ((rest.dropWhile isSpTab).length + 1)
      (rest.dropWhile isSpTab) (by omega) (by omega)]
    rfl
  · rw [if_neg hc, if_neg hc]
    rfl

theorem head?_eq_of_isPrefix {l1 l2 : List Char} (h : l1 <+: l2) (hne : l1 ≠ []) :
    l1.head? = l2.head? := by
  obtain ⟨t, rfl⟩ := h
  cases l1 with
  | nil => exact absurd rfl hne
  | cons c r => rfl

theorem takeWhile_dropWhile_nil (p : Char → Bool) (l : List Char) :
    (l.dropWhile p).takeWhile p = [] := by
  induction l with
  | nil => rfl
  | cons c rest ih =>
    rw [List.dropWhile_cons]
    by_cases h : p c
    · rw [if_pos h]
      exact ih
    · rw [if_neg h, List.takeWhile_cons,
        if_neg (by exact fun hh => h hh)]

theorem takeWhile_append_of_all {p : Char → Bool} {l1 : List Char}
    (l2 : List Char) (h : ∀ a ∈ l1, p a) :
    (l1 ++ l2).takeWhile p = l1 ++ l2.takeWhile p := by
  induction l1 with
  | nil => rfl
  | cons c rest ih =>
    rw [List.cons_append, List.takeWhile_cons,
      if_pos (h c (List.mem_cons_self _ _)), ih fun a ha => h a (List.mem_cons_of_mem _ ha)]
    rfl

theorem drop_length_takeWhile (p : Char → Bool) (l : List Char) :
    l.drop (l.takeWhile p).length = l.dropWhile p := by
  induction l with
  | nil => rfl
  | cons c rest ih =>
    rw [List.takeWhile_cons, List.dropWhile_cons]
    by_cases h : p c
    · rw [if_pos h, if_pos h]
      simpa using ih
    · rw [if_neg h, if_neg h]
      rfl

theorem not_mem_of_contains_eq_false {l : List Char} {a : Char}
    (h : l.contains a = false) : a ∉ l := by
  intro hmem
  have h2 : l.contains a = true := List.elem_iff.mpr hmem
  rw [h2] at h
  cases h

/-- If the whitespace prefix of `l` has no newline, `collapseNl` keeps that
property. -/
theorem hasNlIn_collapseNl_of_not (s : List Char) (h : hasNlIn s = false) :
    hasNlIn (collapseNl s) = false := by
  induction s with
  | nil => rw [collapseNl_nil]; exact h
  | cons c rest ih =>
    have hcnl : ¬ c = '\n' := by
      intro hc
      subst hc
      rw [hasNlIn_cons_nl] at h
      cases h
    rw [collapseNl_cons, if_neg (by simp [hcnl])]
    rw [hasNlIn_cons] at h ⊢
    by_cases hws : pyIsSpace c
    · rw [hws] at h ⊢
      simp only [Bool.true_and] at h ⊢
      rcases Bool.or_eq_false_iff.mp h with ⟨h1, h2⟩
      rw [h1, ih h2]
      rfl
    · have hws' : pyIsSpace c = false := by
        exact Bool.not_eq_true _ ▸ Bool.eq_false_iff.mpr hws
      rw [hws']
      rfl

/-- A helper for the shape left behind by the greedy match: whitespace
non-newline characters followed by a part with an empty whitespace prefix
have no newline in the whitespace prefix. -/
theorem hasNlIn_aux (t d : List Char) (h1 : ∀ a ∈ t, pyIsSpace a = true)
    (h2 : ∀ a ∈ t, ¬ a = '\n') (h3 : d.takeWhile pyIsSpace = []) :
    hasNlIn (t ++ d) = false := by
  unfold hasNlIn
  rw [takeWhile_append_of_all d h1, h3, List.append_nil]
  cases hcon : t.contains '\n' with
  | false => rfl
  | true => exact absurd rfl (h2 _ (List.elem_iff.mp hcon))

/-- After the greedy `\n\s*\n` match, the remainder's whitespace prefix has
no newline. -/
theorem hasNlIn_dropThroughLastNl (l : List Char) :
    hasNlIn (dropThroughLastNl l) = false := by
  show hasNlIn ((((l.takeWhile pyIsSpace).reverse.takeWhile
      (fun c => !(c == '\n'))).reverse) ++ l.drop (l.takeWhile pyIsSpace).length) = false
  refine hasNlIn_aux _ _ ?_ ?_ ?_
  · intro a ha
    rw [List.mem_reverse] at ha
    have haw : a ∈ l.takeWhile pyIsSpace := by
      have hsub := (List.takeWhile_prefix
        (l := (l.takeWhile pyIsSpace).reverse) (fun c => !(c == '\n'))).subset ha
      rw [List.mem_reverse] at hsub
      exact hsub
    exact List.mem_takeWhile_imp haw
  · intro a ha
    rw [List.mem_reverse] at ha
    have hp := List.mem_takeWhile_imp ha
    simpa using hp
  · rw [drop_length_takeWhile pyIsSpace l]
    exact takeWhile_dropWhile_nil pyIsSpace l

theorem Qb_cons (c : Char) (rest : List Char) :
    Qb (c :: rest) =
      ((if c == '\n' then
        (!hasNlIn rest) || (rest.head? == some '\n' && !hasNlIn rest.tail)
       else true) && Qb rest) := rfl

theorem Qb_of_Qb_cons {c : Char} {rest : List Char} (h : Qb (c :: rest) = true) :
    Qb rest = true :=
  (Bool.and_eq_true _ _ |>.mp (Qb_cons c rest ▸ h)).2

/-- The output of `collapseNl` satisfies the newline-shape invariant. -/
theorem Qb_collapseNl (s : List Char) : Qb (collapseNl s) = true := by
  cases s with
  | nil => rfl
  | cons c rest =>
    rw [collapseNl_cons]
    by_cases hc : (c == '\n' && hasNlIn rest) = true
    · rw [if_pos hc]
      have h2 := hasNlIn_dropThroughLastNl rest
      have h3 := hasNlIn_collapseNl_of_not _ h2
      have h4 := Qb_collapseNl (dropThroughLastNl rest)
      rw [Qb_cons, Qb_cons]
      simp [hasNlIn_cons_nl, h3, h4]
    · rw [if_neg hc, Qb_cons]
      have h4 := Qb_collapseNl rest
      by_cases hcn : c = '\n'
      · subst hcn
        have hr : hasNlIn rest = false := by
          by_cases hh : hasNlIn rest = true
          · exact absurd (by rw [hh]; rfl) hc
          · exact Bool.not_eq_true _ ▸ Bool.eq_false_iff.mpr hh
        have h3 := hasNlIn_collapseNl_of_not rest hr
        simp [h3, h4]
      · simp [hcn, h4]
termination_by s.length
decreasing_by
  · simp only [List.length_cons]
    have := length_dropThroughLastNl_lt (Bool.and_eq_true _ _ |>.mp hc).2
    omega
  · simp only [List.length_cons]
    omega

theorem dropThroughLastNl_cons_nl (rest2 : List Char) (h : hasNlIn rest2 = false) :
    dropThroughLastNl ('\n' :: rest2) = rest2 := by
  show ((('\n' :: rest2).takeWhile pyIsSpace).reverse.takeWhile
      (fun c => !(c == '\n'))).reverse ++
    ('\n' :: rest2).drop (('\n' :: rest2).takeWhile pyIsSpace).length = rest2
  have hw : ('\n' :: rest2).takeWhile pyIsSpace =
      '\n' :: rest2.takeWhile pyIsSpace := by
    rw [List.takeWhile_cons, if_pos (by rfl)]
  rw [hw]
  have hnl : ∀ a ∈ (rest2.takeWhile pyIsSpace).reverse,
      (fun c => !(c == '\n')) a = true := by
    intro a ha
    rw [List.mem_reverse] at ha
    have hne : a ≠ '\n' := by
      intro hh
      subst hh
      exact not_mem_of_contains_eq_false h ha
    simp [hne]
  rw [List.reverse_cons, takeWhile_append_of_all _ hnl]
  have h1 : (['\n'] : List Char).takeWhile (fun c => !(c == '\n')) = [] := rfl
  rw [h1, List.append_nil, List.reverse_reverse, List.length_cons,
    List.drop_succ_cons, drop_length_takeWhile,
    List.takeWhile_append_dropWhile]

theorem collapseNl_of_Qb_f : ∀ (f : Nat) (s : List Char), s.length < f →
    Qb s = true → collapseNl s = s := by
  intro f
  induction f with
  | zero => intro s hlen _; omega
  | succ f ih =>
    intro s hlen h
    cases s with
  | nil => rfl
  | cons c rest =>
    have hq2 := Qb_of_Qb_cons h
    rw [Qb_cons, Bool.and_eq_true] at h
    rw [collapseNl_cons]
    by_cases hc : (c == '\n' && hasNlIn rest) = true
    · rw [if_pos hc]
      obtain ⟨hcn, hnl⟩ := Bool.and_eq_true _ _ |>.mp hc
      have hcn' : c = '\n' := by simpa using hcn
      subst hcn'
      have h1 := h.1
      rw [if_pos (by rfl), hnl] at h1
      simp only [Bool.not_true, Bool.false_or, Bool.and_eq_true] at h1
      cases rest with
      | nil => simp at h1
      | cons d rest2 =>
        have hd : d = '\n' := by
          have := h1.1
          simp only [List.head?] at this
          simpa using this
        subst hd
        have hnl2 : hasNlIn rest2 = false := by
          have := h1.2
          simp only [List.tail] at this
          simpa using this
        rw [dropThroughLastNl_cons_nl rest2 hnl2]
        have hq3 : Qb rest2 = true := Qb_of_Qb_cons hq2
        rw [ih rest2 (by simp only [List.length_cons] at hlen; omega) hq3]
    · rw [if_neg hc, ih rest (by simp only [List.length_cons] at hlen; omega) hq2]

/-- Strings satisfying the newline-shape invariant are fixed points of
`collapseNl` (the blank-line collapse). -/
theorem collapseNl_of_Qb (s : List Char) (h : Qb s = true) : collapseNl s = s :=
  collapseNl_of_Qb_f (s.length + 1) s (by omega) h

theorem Qb_dropWhile (p : Char → Bool) (s : List Char) (h : Qb s = true) :
    Qb (s.dropWhile p) = true := by
  induction s with
  | nil => exact h
  | cons c rest ih =>
    rw [List.dropWhile_cons]
    by_cases hp : p c
    · rw [if_pos hp]
      exact ih (Qb_of_Qb_cons h)
    · rw [if_neg hp]
      exact h

theorem hasNlIn_take : ∀ (m : Nat) (l : List Char),
    hasNlIn (l.take m) = true → hasNlIn l = true := by
  intro m l
  induction l generalizing m with
  | nil =>
    intro h
    rw [List.take_nil] at h
    exact h
  | cons c rest ih =>
    cases m with
    | zero =>
      intro h
      rw [List.take_zero] at h
      cases h
    | succ m =>
      intro h
      rw [List.take_succ_cons] at h
      rw [hasNlIn_cons] at h ⊢
      rcases Bool.and_eq_true _ _ |>.mp h with ⟨h1, h2⟩
      rw [h1]
      rcases Bool.or_eq_true _ _ |>.mp h2 with h3 | h3
      · rw [h3]
        rfl
      · rw [ih m h3]
        simp

theorem Qb_take : ∀ (m : Nat) (l : List Char), Qb l = true → Qb (l.take m) = true := by
  intro m l
  induction l generalizing m with
  | nil =>
    intro h
    rw [List.take_nil]
    exact h
  | cons c rest ih =>
    intro h
    cases m with
    | zero => rfl
    | succ m =>
      rw [List.take_succ_cons, Qb_cons]
      refine Bool.and_eq_true _ _ |>.mpr ⟨?_, ih m (Qb_of_Qb_cons h)⟩
      rw [Qb_cons, Bool.and_eq_true] at h
      have h1 := h.1
      by_cases hc : (c == '\n') = true
      · rw [if_pos hc] at h1 ⊢
        rcases Bool.or_eq_true _ _ |>.mp h1 with h2 | h2
        · refine Bool.or_eq_true _ _ |>.mpr (Or.inl ?_)
          cases hht : hasNlIn (rest.take m) with
          | false => rfl
          | true =>
            rw [Bool.not_eq_eq_eq_not, Bool.not_true] at h2
            rw [hasNlIn_take m rest hht] at h2
            cases h2
        · rcases Bool.and_eq_true _ _ |>.mp h2 with ⟨h3, h4⟩
          cases rest with
          | nil => simp at h3
          | cons d rest2 =>
            have hd : d = '\n' := by simpa using h3
            subst hd
            cases m with
            | zero =>
              refine Bool.or_eq_true _ _ |>.mpr (Or.inl ?_)
              rw [List.take_zero]
              rfl
            | succ m2 =>
              refine Bool.or_eq_true _ _ |>.mpr (Or.inr ?_)
              rw [List.take_succ_cons]
              refine Bool.and_eq_true _ _ |>.mpr ⟨by rfl, ?_⟩
              have h4' : hasNlIn rest2 = false := by
                rw [Bool.not_eq_eq_eq_not, Bool.not_true] at h4
                exact h4
              show (!hasNlIn (rest2.take m2)) = true
              cases hht : hasNlIn (rest2.take m2) with
              | false => rfl
              | true =>
                rw [hasNlIn_take m2 rest2 hht] at h4'
                cases h4'
      · rw [if_neg hc]

theorem isSpTab_elim {c : Char} (h : isSpTab c = true) : c = ' ' ∨ c = '\t' := by
  unfold isSpTab at h
  rcases Bool.or_eq_true _ _ |>.mp h with h1 | h1
  · exact Or.inl (by simpa using h1)
  · exact Or.inr (by simpa using h1)

theorem pyIsSpace_of_isSpTab {c : Char} (h : isSpTab c = true) : pyIsSpace c = true := by
  rcases isSpTab_elim h with rfl | rfl <;> rfl

theorem beq_nl_of_isSpTab {c : Char} (h : isSpTab c = true) : (c == '\n') = false := by
  rcases isSpTab_elim h with rfl | rfl <;> rfl

theorem hasNlIn_dropWhile_spTab (z : List Char) :
    hasNlIn (z.dropWhile isSpTab) = hasNlIn z := by
  induction z with
  | nil => rfl
  | cons c rest ih =>
    rw [List.dropWhile_cons]
    by_cases h : isSpTab c = true
    · rw [if_pos h, ih, hasNlIn_cons, pyIsSpace_of_isSpTab h, beq_nl_of_isSpTab h]
      simp
    · rw [if_neg h]

theorem hasNlIn_collapseSp_f : ∀ (f : Nat) (s : List Char), s.length < f →
    hasNlIn (collapseSp s) = hasNlIn s := by
  intro f
  induction f with
  | zero => intro s h; omega
  | succ f ih =>
    intro s hlen
    cases s with
    | nil => rfl
    | cons c rest =>
      simp only [List.length_cons] at hlen
      rw [collapseSp_cons]
      by_cases hc : isSpTab c = true
      · rw [if_pos hc, hasNlIn_cons, hasNlIn_cons, pyIsSpace_of_isSpTab hc,
          beq_nl_of_isSpTab hc,
          ih (rest.dropWhile isSpTab)
            (by have := (List.dropWhile_suffix isSpTab (l := rest)).length_le; omega),
          hasNlIn_dropWhile_spTab]
        rfl
      · rw [if_neg hc, hasNlIn_cons, hasNlIn_cons, ih rest (by omega)]

theorem hasNlIn_collapseSp (s : List Char) : hasNlIn (collapseSp s) = hasNlIn s :=
  hasNlIn_collapseSp_f (s.length + 1) s (by omega)

theorem Qb_collapseSp_f : ∀ (f : Nat) (s : List Char), s.length < f →
    Qb s = true → Qb (collapseSp s) = true := by
  intro f
  induction f with
  | zero => intro s h; omega
  | succ f ih =>
    intro s hlen h
    cases s with
    | nil => rfl
    | cons c rest =>
      simp only [List.length_cons] at hlen
      have hq2 := Qb_of_Qb_cons h
      rw [collapseSp_cons]
      by_cases hc : isSpTab c = true
      · rw [if_pos hc, Qb_cons]
        have hz := ih (rest.dropWhile isSpTab)
          (by have := (List.dropWhile_suffix isSpTab (l := rest)).length_le; omega)
          (Qb_dropWhile _ _ hq2)
        rw [hz]
        rfl
      · rw [if_neg hc, Qb_cons]
        refine Bool.and_eq_true _ _ |>.mpr ⟨?_, ih rest (by omega) hq2⟩
        rw [Qb_cons, Bool.and_eq_true] at h
        have h1 := h.1
        by_cases hcn : (c == '\n') = true
        · rw [if_pos hcn] at h1 ⊢
          rcases Bool.or_eq_true _ _ |>.mp h1 with h2 | h2
          · refine Bool.or_eq_true _ _ |>.mpr (Or.inl ?_)
            rw [Bool.not_eq_eq_eq_not, Bool.not_true] at h2 ⊢
            rw [hasNlIn_collapseSp rest]
            exact h2
          · rcases Bool.and_eq_true _ _ |>.mp h2 with ⟨h3, h4⟩
            cases rest with
            | nil => simp at h3
            | cons d rest2 =>
              have hd : d = '\n' := by simpa using h3
              subst hd
              rw [collapseSp_cons, if_neg (by intro hh; cases hh)]
              refine Bool.or_eq_true _ _ |>.mpr (Or.inr ?_)
              refine Bool.and_eq_true _ _ |>.mpr ⟨by rfl, ?_⟩
              show (!hasNlIn (collapseSp rest2)) = true
              rw [Bool.not_eq_eq_eq_not, Bool.not_true, hasNlIn_collapseSp rest2]
              rw [Bool.not_eq_eq_eq_not, Bool.not_true] at h4
              exact h4
        · rw [if_neg hcn]

theorem Qb_collapseSp (s : List Char) (h : Qb s = true) : Qb (collapseSp s) = true :=
  Qb_collapseSp_f (s.length + 1) s (by omega) h

theorem Rb_cons (c : Char) (rest : List Char) :
    Rb (c :: rest) =
      ((!(c == '\t')) && (if c == ' ' then !(rest.head? == some ' ') else true) &&
        Rb rest) := rfl

theorem Rb_of_Rb_cons {c : Char} {rest : List Char} (h : Rb (c :: rest) = true) :
    Rb rest = true :=
  (Bool.and_eq_true _ _ |>.mp (Rb_cons c rest ▸ h)).2

theorem head?_dropWhile_false (p : Char → Bool) (l : List Char) :
    ∀ c, (l.dropWhile p).head? = some c → p c = false := by
  induction l with
  | nil => intro c h; cases h
  | cons d rest ih =>
    intro c h
    rw [List.dropWhile_cons] at h
    by_cases hp : p d = true
    · rw [if_pos hp] at h
      exact ih c h
    · rw [if_neg hp] at h
      injection h with h
      subst h
      exact Bool.not_eq_true _ ▸ Bool.eq_false_iff.mpr hp

/-- The output of `collapseSp` satisfies the space-shape invariant: no tabs
and no adjacent spaces. -/
theorem Rb_collapseSp_f : ∀ (f : Nat) (s : List Char), s.length < f →
    Rb (collapseSp s) = true := by
  intro f
  induction f with
  | zero => intro s h; omega
  | succ f ih =>
    intro s hlen
    cases s with
    | nil => rfl
    | cons c rest =>
      simp only [List.length_cons] at hlen
      rw [collapseSp_cons]
      by_cases hc : isSpTab c = true
      · rw [if_pos hc, Rb_cons]
        have hz := ih (rest.dropWhile isSpTab)
          (by have := (List.dropWhile_suffix isSpTab (l := rest)).length_le; omega)
        rw [hz]
        have hhd : (!((collapseSp (rest.dropWhile isSpTab)).head? == some ' ')) = true := by
          cases hw : rest.dropWhile isSpTab with
          | nil => rfl
          | cons d w2 =>
            have hd : isSpTab d = false := by
              have := head?_dropWhile_false isSpTab rest d (by rw [hw]; rfl)
              exact this
            rw [collapseSp_cons, if_neg (by rw [hd]; exact Bool.false_ne_true)]
            have hds : ¬ d = ' ' := by
              intro hh
              subst hh
              cases hd
            simp [hds]
        rw [hhd]
        rfl
      · rw [if_neg hc, Rb_cons, ih rest (by omega)]
        have hct : (!(c == '\t')) = true := by
          have hcs : ¬ c = '\t' := by
            intro hh
            subst hh
            exact hc rfl
          simp [hcs]
        have hcsp : (c == ' ') = false := by
          have hcs : ¬ c = ' ' := by
            intro hh
            subst hh
            exact hc rfl
          simpa using hcs
        rw [hct, hcsp]
        rfl

theorem Rb_collapseSp (s : List Char) : Rb (collapseSp s) = true :=
  Rb_collapseSp_f (s.length + 1) s (by omega)

/-- Strings satisfying the space-shape invariant are fixed points of
`collapseSp`. -/
theorem collapseSp_of_Rb_f : ∀ (f : Nat) (s : List Char), s.length < f →
    Rb s = true → collapseSp s = s := by
  intro f
  induction f with
  | zero => intro s h; omega
  | succ f ih =>
    intro s hlen h
    cases s with
    | nil => rfl
    | cons c rest =>
      simp only [List.length_cons] at hlen
      have hr2 := Rb_of_Rb_cons h
      rw [Rb_cons, Bool.and_eq_true, Bool.and_eq_true] at h
      rw [collapseSp_cons]
      by_cases hc : isSpTab c = true
      · rw [if_pos hc]
        have hcs : c = ' ' := by
          rcases isSpTab_elim hc with rfl | rfl
          · rfl
          · exfalso
            have := h.1.1
            cases this
        subst hcs
        have hdw : rest.dropWhile isSpTab = rest := by
          cases rest with
          | nil => rfl
          | cons d rest2 =>
            rw [List.dropWhile_cons, if_neg]
            intro hd
            rcases isSpTab_elim hd with rfl | rfl
            · have := h.1.2
              rw [if_pos (by rfl)] at this
              simp at this
            · have := Rb_cons _ _ ▸ hr2
              rw [Bool.and_eq_true, Bool.and_eq_true] at this
              cases this.1.1
        rw [hdw, ih rest (by omega) hr2]
      · rw [if_neg hc, ih rest (by omega) hr2]

theorem collapseSp_of_Rb (s : List Char) (h : Rb s = true) : collapseSp s = s :=
  collapseSp_of_Rb_f (s.length + 1) s (by omega) h

theorem Rb_dropWhile (p : Char → Bool) (s : List Char) (h : Rb s = true) :
    Rb (s.dropWhile p) = true := by
  induction s with
  | nil => exact h
  | cons c rest ih =>
    rw [List.dropWhile_cons]
    by_cases hp : p c
    · rw [if_pos hp]
      exact ih (Rb_of_Rb_cons h)
    · rw [if_neg hp]
      exact h

theorem Rb_take : ∀ (m : Nat) (l : List Char), Rb l = true → Rb (l.take m) = true := by
  intro m l
  induction l generalizing m with
  | nil =>
    intro h
    rw [List.take_nil]
    exact h
  | cons c rest ih =>
    intro h
    cases m with
    | zero => rfl
    | succ m =>
      rw [List.take_succ_cons, Rb_cons]
      rw [Rb_cons, Bool.and_eq_true, Bool.and_eq_true] at h
      refine Bool.and_eq_true _ _ |>.mpr ⟨Bool.and_eq_true _ _ |>.mpr ⟨h.1.1, ?_⟩,
        ih m h.2⟩
      by_cases hcs : (c == ' ') = true
      · rw [if_pos hcs]
        have h12 := h.1.2
        rw [if_pos hcs] at h12
        cases rest with
        | nil =>
          rw [List.take_nil]
          rfl
        | cons d rest2 =>
          cases m with
          | zero => rfl
          | succ m2 =>
            rw [List.take_succ_cons]
            exact h12
      · rw [if_neg hcs]

theorem reverse_dropWhile_reverse_isPrefix (p : Char → Bool) (l : List Char) :
    (l.reverse.dropWhile p).reverse <+: l := by
  have h := List.dropWhile_suffix p (l := l.reverse)
  have h3 : (l.reverse.dropWhile p).reverse.reverse <:+ l.reverse := by
    rw [List.reverse_reverse]
    exact h
  exact List.reverse_suffix.mp h3

theorem Qb_pyStrip (s : List Char) (h : Qb s = true) : Qb (pyStrip s) = true := by
  unfold pyStrip
  have h1 : Qb (s.dropWhile pyIsSpace) = true := Qb_dropWhile _ _ h
  have hpre := reverse_dropWhile_reverse_isPrefix pyIsSpace (s.dropWhile pyIsSpace)
  rw [List.prefix_iff_eq_take.mp hpre]
  exact Qb_take _ _ h1

theorem Rb_pyStrip (s : List Char) (h : Rb s = true) : Rb (pyStrip s) = true := by
  unfold pyStrip
  have h1 : Rb (s.dropWhile pyIsSpace) = true := Rb_dropWhile _ _ h
  have hpre := reverse_dropWhile_reverse_isPrefix pyIsSpace (s.dropWhile pyIsSpace)
  rw [List.prefix_iff_eq_take.mp hpre]
  exact Rb_take _ _ h1

theorem dropWhile_eq_self_of_head {p : Char → Bool} {l : List Char}
    (h : ∀ c, l.head? = some c → p c = false) : l.dropWhile p = l := by
  cases l with
  | nil => rfl
  | cons c rest =>
    rw [List.dropWhile_cons, if_neg]
    rw [h c rfl]
    exact Bool.false_ne_true

theorem pyStrip_head (s : List Char) :
    ∀ c, (pyStrip s).head? = some c → pyIsSpace c = false := by
  intro c h
  have hpre := reverse_dropWhile_reverse_isPrefix pyIsSpace (s.dropWhile pyIsSpace)
  unfold pyStrip at h
  have hne : ((s.dropWhile pyIsSpace).reverse.dropWhile pyIsSpace).reverse ≠ [] := by
    intro hh
    rw [hh] at h
    cases h
  rw [head?_eq_of_isPrefix hpre hne] at h
  exact head?_dropWhile_false pyIsSpace s c h

theorem pyStrip_last (s : List Char) :
    ∀ c, (pyStrip s).getLast? = some c → pyIsSpace c = false := by
  intro c h
  rw [← List.head?_reverse] at h
  rw [show (pyStrip s).reverse =
      (s.dropWhile pyIsSpace).reverse.dropWhile pyIsSpace from by
    rw [show pyStrip s =
      ((s.dropWhile pyIsSpace).reverse.dropWhile pyIsSpace).reverse from rfl,
      List.reverse_reverse]] at h
  exact head?_dropWhile_false pyIsSpace _ c h

theorem pyStrip_of_stripped (s : List Char)
    (h1 : ∀ c, s.head? = some c → pyIsSpace c = false)
    (h2 : ∀ c, s.getLast? = some c → pyIsSpace c = false) : pyStrip s = s := by
  unfold pyStrip
  rw [dropWhile_eq_self_of_head h1,
    dropWhile_eq_self_of_head (fun c hc => h2 c (by rw [← List.head?_reverse]; exact hc)),
    List.reverse_reverse]

theorem cleanContent_no_patterns {x : PyStr} (hx : ¬ x.isEmpty = true) :
    cleanContent [] x = pyStrip (collapseSp (collapseNl x)) := by
  unfold cleanContent
  rw [if_neg hx]
  rfl

/-- C5 (amended): `clean_content` with an empty `remove_patterns` list — that
is, the final whitespace-normalization stage (blank-line collapse, space
collapse, strip) — is idempotent on every input.  With a nonempty pattern
list (the default list included) idempotence fails, because a pattern pass
can expose matches for earlier patterns in the list on a second run. -/
theorem cleanContent_empty_patterns_idempotent (x : PyStr) :
    cleanContent [] (cleanContent [] x) = cleanContent [] x := by
  by_cases hx : x.isEmpty = true
  · have h0 : cleanContent [] x = [] := by
      unfold cleanContent
      rw [if_pos hx]
    rw [h0]
    rfl
  · rw [cleanContent_no_patterns hx]
    by_cases hyy : (pyStrip (collapseSp (collapseNl x))).isEmpty = true
    · unfold cleanContent
      rw [if_pos hyy, List.isEmpty_iff.mp hyy]
    · rw [cleanContent_no_patterns hyy]
      have hq : Qb (pyStrip (collapseSp (collapseNl x))) = true :=
        Qb_pyStrip _ (Qb_collapseSp _ (Qb_collapseNl x))
      have hr : Rb (pyStrip (collapseSp (collapseNl x))) = true :=
        Rb_pyStrip _ (Rb_collapseSp _)
      rw [collapseNl_of_Qb _ hq, collapseSp_of_Rb _ hr,
        pyStrip_of_stripped _ (pyStrip_head _) (pyStrip_last _)]
